import Mathlib

/-!
SMP task dispatch, AP bring-up and HTTP message body bookkeeping.

A shallow embedding of

* `src/platform/x86_pc/apic_revenant.cpp`: `revenant_task_doer`,
  `revenant_task_handler`, `revenant_thread_main`;
* `src/net/http/message.cpp`: `Message::add_body`, `add_chunk`, `has_body`,
  `body`, `clear_body`, `reset`.

Work functions and completion callbacks are identified by numbers.  What a work
function does to the dispatcher state is given by a table `prog` that maps the
number of a work function to the list of tasks it submits; this allows a task to
resubmit itself, so the two `while` loops of the handler run on fuel.  A spin
lock that is taken while it is held never returns in a model without other
cores; it is modelled as `none`, like running out of fuel.  Every operation is
written to a trace together with the lock flags at that moment, so that what
ran, in which order and under which lock can be read off afterwards.

Bring-up is modelled one statement at a time: `thread_step` executes the
statement a core is at, `revenant_thread_main` runs one core alone, and
`run_schedule` interleaves several cores on the shared state.
-/

namespace x86

/-! ## Data model -/

/-- Modelled from the spec: the declaration of `smp_task` (apic_revenant.hpp) is
not among the sources.  A task is a required work function and an optional
completion callback; `func` and `done` name them by number. -/
structure smp_task where
  func : Nat
  done : Option Nat
deriving DecidableEq

/-- Modelled from the spec: the declaration of `smp_system_stuff`
(apic_revenant.hpp) is not among the sources.  The lock of the pending list, the
lock of the completed list, the two lists and the "work performed" flag. -/
structure smp_system_stuff where
  tlock : Bool
  flock : Bool
  tasks : List smp_task
  completed : List Nat
  work_done : Bool
deriving DecidableEq

/-- Modelled from the spec: the declaration of `smp_stuff` (apic_revenant.hpp)
is not among the sources.  Stack geometry, boot barrier counter, notification
bitmap (bit `c` of the number is the bit of core `c`; the number of bits is not
bounded) and the list of initialised cores. -/
structure smp_stuff where
  stack_base : Nat
  stack_size : Nat
  boot_barrier : Nat
  bitmap : Nat
  initialized_cpus : List Int
deriving DecidableEq

/-- The operations of the dispatcher, in the order the source performs them. -/
inductive Event where
  | tlock_lock (q : Nat)
  | tasks_empty (q : Nat) (b : Bool)
  | tasks_swap (q : Nat)
  | tlock_unlock (q : Nat)
  | func (t : smp_task)
  | add_task (q : Nat) (t : smp_task)
  | flock_lock (c : Nat)
  | completed_push (c : Nat) (d : Nat)
  | flock_unlock (c : Nat)
  | work_done_set (c : Nat) (b : Bool)
  | bitmap_set (c : Nat)
  | send_bsp_intr
deriving DecidableEq

/-- One line of the trace: the operation and the `(tlock, flock)` pair of every
queue at the moment the operation starts. -/
structure Entry where
  ev : Event
  locks : List (Bool × Bool)
deriving DecidableEq

/-- The state the dispatcher works on: `smp_main`, the vector `smp_system` and
the trace of operations performed so far (ghost state). -/
structure World where
  smp_main : smp_stuff
  smp_system : List smp_system_stuff
  trace : List Entry
deriving DecidableEq

/-- The table of work functions: the tasks that work function `f` submits, each
with the index of the queue it is submitted to. -/
abbrev Prog := Nat → List (Nat × smp_task)

/-! ## Primitive operations -/

/-- The `(tlock, flock)` pair of every queue. -/
def lock_state (w : World) : List (Bool × Bool) :=
  w.smp_system.map fun s => (s.tlock, s.flock)

/-- Operation `e` is written to the trace, with the locks as they are; the trace
is never read by the code. -/
def emit (e : Event) (w : World) : World :=
  { w with trace := w.trace ++ [⟨e, lock_state w⟩] }

/-- The element `smp_system[i]` is changed by `f`. -/
def modify_system (i : Nat) (f : smp_system_stuff → smp_system_stuff) (w : World) : World :=
  { w with smp_system := w.smp_system.modify f i }

/-- The call `system.tlock.lock()` on `smp_system[q]`. -/
def tlock_lock (q : Nat) (w : World) : Option World :=
  match w.smp_system[q]? with
  | none => none
  | some s =>
    if s.tlock then none
    else some (modify_system q (fun s => { s with tlock := true }) (emit (.tlock_lock q) w))

/-- The call `system.tlock.unlock()` on `smp_system[q]`. -/
def tlock_unlock (q : Nat) (w : World) : World :=
  modify_system q (fun s => { s with tlock := false }) (emit (.tlock_unlock q) w)

/-- The call `flock.lock()` on `smp_system[c]`. -/
def flock_lock (c : Nat) (w : World) : Option World :=
  match w.smp_system[c]? with
  | none => none
  | some s =>
    if s.flock then none
    else some (modify_system c (fun s => { s with flock := true }) (emit (.flock_lock c) w))

/-- The call `flock.unlock()` on `smp_system[c]`. -/
def flock_unlock (c : Nat) (w : World) : World :=
  modify_system c (fun s => { s with flock := false }) (emit (.flock_unlock c) w)

/-- The call `completed.push_back(std::move(task.done))` on `smp_system[c]`. -/
def completed_push (c d : Nat) (w : World) : World :=
  modify_system c (fun s => { s with completed := s.completed ++ [d] })
    (emit (.completed_push c d) w)

/-- The assignment `work_done = b` on `smp_system[c]`. -/
def set_work_done (c : Nat) (b : Bool) (w : World) : World :=
  modify_system c (fun s => { s with work_done := b }) (emit (.work_done_set c b) w)

/-- The call `system.tasks.swap(tasks)` with an empty local vector: the pending list of
`smp_system[q]` becomes empty (the caller keeps the old list). -/
def tasks_swap (q : Nat) (w : World) : World :=
  modify_system q (fun s => { s with tasks := [] }) (emit (.tasks_swap q) w)

/-- The pending list of queue `q` (empty when there is no such queue). -/
def tasks_of (w : World) (q : Nat) : List smp_task :=
  match w.smp_system[q]? with
  | some s => s.tasks
  | none => []

/-- The completed list of queue `i` (empty when there is no such queue). -/
def completed_of (w : World) (i : Nat) : List Nat :=
  match w.smp_system[i]? with
  | some s => s.completed
  | none => []

/-- The "work performed" flag of queue `i`. -/
def work_done_of (w : World) (i : Nat) : Bool :=
  match w.smp_system[i]? with
  | some s => s.work_done
  | none => false

/-- Modelled from the spec: `submit_task` (SMP::add_task) is not among the
sources; it "appends to the target core's (or index-0 global) pending list
under lock".  The pending-list lock of the target is taken and released around
the append, so a held lock blocks. -/
def add_task (q : Nat) (t : smp_task) (w : World) : Option World :=
  match w.smp_system[q]? with
  | none => none
  | some s =>
    if s.tlock then none
    else some (modify_system q (fun s => { s with tasks := s.tasks ++ [t] })
      (emit (.add_task q t) w))

/-- The submissions of one work function, in order. -/
def add_tasks : List (Nat × smp_task) → World → Option World
  | [], w => some w
  | (q, t) :: r, w => (add_task q t w).bind (add_tasks r)

/-- The call `task.func()`: the work function runs and submits the tasks of its table
entry. -/
def task_func (prog : Prog) (t : smp_task) (w : World) : Option World :=
  add_tasks (prog t.func) (emit (.func t) w)

/-! ## `revenant_task_doer` and `revenant_task_handler` -/

/-- The body of the `for (auto& task : tasks)` loop of `revenant_task_doer`,
run on core `cpu`. -/
def run_task (prog : Prog) (cpu : Nat) (t : smp_task) (w : World) : Option World :=
  (task_func prog t w).bind fun w1 =>
    match t.done with
    | none => some w1
    | some d =>
      (flock_lock cpu w1).bind fun w2 =>
        some (set_work_done cpu true (flock_unlock cpu (completed_push cpu d w2)))

/-- The `for (auto& task : tasks)` loop of `revenant_task_doer`. -/
def for_tasks (prog : Prog) (cpu : Nat) : List smp_task → World → Option World
  | [], w => some w
  | t :: r, w => (run_task prog cpu t w).bind (for_tasks prog cpu r)

/-- The function `revenant_task_doer(system)` with `system = smp_system[q]`, run
on core `cpu`.  The macro `PER_CPU` is not among the sources; `PER_CPU(smp_system)`
is the element of the running core, `smp_system[cpu]`.  The result is `none`
when the pass never returns: an index outside the vector, or a lock that is
held and that nobody is there to release. -/
def revenant_task_doer (prog : Prog) (cpu q : Nat) (w : World) : Option (Bool × World) :=
  (tlock_lock q w).bind fun w1 =>
    let w2 := emit (.tasks_empty q (tasks_of w1 q).isEmpty) w1
    if (tasks_of w2 q).isEmpty then
      some (false, tlock_unlock q w2)
    else
      let tasks := tasks_of w2 q
      let w3 := tlock_unlock q (tasks_swap q w2)
      (for_tasks prog cpu tasks w3).bind fun w4 => some (true, w4)

/-- The loop `while (revenant_task_doer(smp_system[q]));` with at most `fuel`
passes. -/
def drain (prog : Prog) (cpu q : Nat) : Nat → World → Option World
  | 0, _ => none
  | fuel + 1, w =>
    match revenant_task_doer prog cpu q w with
    | none => none
    | some (true, w1) => drain prog cpu q fuel w1
    | some (false, w1) => some w1

/-- The call `smp_main.bitmap.atomic_set(cpu)`. -/
def bitmap_atomic_set (cpu : Nat) (w : World) : World :=
  let w1 := emit (.bitmap_set cpu) w
  { w1 with smp_main := { w1.smp_main with bitmap := w1.smp_main.bitmap ||| (1 <<< cpu) } }

/-- The call `x86::APIC::get().send_bsp_intr()`: the interrupt is recorded in the
trace. -/
def send_bsp_intr (w : World) : World :=
  emit .send_bsp_intr w

/-- The function `revenant_task_handler()` on core `cpu` (the value of
`SMP::cpu_id()`), each of its two `while` loops with at most `fuel` passes. -/
def revenant_task_handler (prog : Prog) (cpu fuel : Nat) (w : World) : Option World :=
  match w.smp_system[cpu]? with
  | none => none
  | some _ =>
    let w0 := set_work_done cpu false w
    (drain prog cpu cpu fuel w0).bind fun w1 =>
      (drain prog cpu 0 fuel w1).bind fun w2 =>
        if work_done_of w2 cpu then some (send_bsp_intr (bitmap_atomic_set cpu w2))
        else some w2

/-! ## Reading the trace -/

/-- The tasks whose work function was invoked, in order. -/
def executed (es : List Entry) : List smp_task :=
  es.filterMap fun e => match e.ev with
    | .func t => some t
    | _ => none

/-- The tasks submitted to queue `q`, in order. -/
def submitted (q : Nat) (es : List Entry) : List smp_task :=
  es.filterMap fun e => match e.ev with
    | .add_task q1 t => if q1 = q then some t else none
    | _ => none

/-- The number of interrupts raised to the BSP. -/
def ipi_count (es : List Entry) : Nat :=
  es.countP fun e => e.ev = .send_bsp_intr

/-- The completion callbacks of a list of tasks, in order. -/
def callbacks (ts : List smp_task) : List Nat :=
  ts.filterMap fun t => t.done

/-! ## What the dispatcher does to the state, written out -/

/-- The callbacks appended to the completed list of queue `i`, in order. -/
def pushed (i : Nat) (es : List Entry) : List Nat :=
  es.filterMap fun e => match e.ev with
    | .completed_push c d => if c = i then some d else none
    | _ => none

/-- Whether the "work performed" flag of queue `i` was set to true. -/
def raised (i : Nat) (es : List Entry) : Bool :=
  es.any fun e => e.ev = .work_done_set i true

/-- The state of queue `i` after the operations `ev` of the task loop: submitted
tasks are appended to the pending list, staged callbacks to the completed list,
and the flag is raised if it was set. -/
def grow (i : Nat) (ev : List Entry) (s : smp_system_stuff) : smp_system_stuff :=
  { s with
    tasks := s.tasks ++ submitted i ev
    completed := s.completed ++ pushed i ev
    work_done := s.work_done || raised i ev }

/-- The relation `Run w w1 ev`: from `w` the operations `ev` lead to `w1`, they
leave `smp_main` and the locks as they are and change the queues as `grow`
says. -/
structure Run (w w1 : World) (ev : List Entry) : Prop where
  trace_eq : w1.trace = w.trace ++ ev
  main_eq : w1.smp_main = w.smp_main
  sys_eq : ∀ i, w1.smp_system[i]? = (w.smp_system[i]?).map (grow i ev)

/-- The lock snapshot with the completed-list lock of `c` held. -/
def with_flock (c : Nat) (L : List (Bool × Bool)) : List (Bool × Bool) :=
  L.modify (fun p => (p.1, true)) c

/-- The lock snapshot with the pending-list lock of `q` held. -/
def with_tlock (q : Nat) (L : List (Bool × Bool)) : List (Bool × Bool) :=
  L.modify (fun p => (true, p.2)) q

/-- The entries `add_tasks l` writes when the locks are `L`. -/
def add_trace (L : List (Bool × Bool)) (l : List (Nat × smp_task)) : List Entry :=
  l.map fun qt => ⟨.add_task qt.1 qt.2, L⟩

/-- The entries the staging of a callback writes when the locks are `L`. -/
def done_trace (cpu : Nat) (L : List (Bool × Bool)) : Option Nat → List Entry
  | none => []
  | some d =>
    [⟨.flock_lock cpu, L⟩, ⟨.completed_push cpu d, with_flock cpu L⟩,
     ⟨.flock_unlock cpu, with_flock cpu L⟩, ⟨.work_done_set cpu true, L⟩]

/-- The entries `run_task` writes for task `t` when the locks are `L`. -/
def task_trace (prog : Prog) (cpu : Nat) (L : List (Bool × Bool)) (t : smp_task) : List Entry :=
  ⟨.func t, L⟩ :: add_trace L (prog t.func) ++ done_trace cpu L t.done

/-- The entries `for_tasks` writes for the tasks `ts` when the locks are `L`. -/
def tasks_trace (prog : Prog) (cpu : Nat) (L : List (Bool × Bool)) : List smp_task → List Entry
  | [] => []
  | t :: r => task_trace prog cpu L t ++ tasks_trace prog cpu L r

/-- The entries one pass of `revenant_task_doer` writes when the locks are `L`
and the pending list of the queue is `ts`. -/
def doer_trace (prog : Prog) (cpu q : Nat) (L : List (Bool × Bool)) (ts : List smp_task) :
    List Entry :=
  ⟨.tlock_lock q, L⟩ :: ⟨.tasks_empty q ts.isEmpty, with_tlock q L⟩ ::
    (if ts.isEmpty then [⟨.tlock_unlock q, with_tlock q L⟩]
     else ⟨.tasks_swap q, with_tlock q L⟩ :: ⟨.tlock_unlock q, with_tlock q L⟩ ::
       tasks_trace prog cpu L ts)

/-- What one pass of `revenant_task_doer` on queue `q` does. -/
structure Pass (prog : Prog) (cpu q : Nat) (w : World) (b : Bool) (w1 : World) : Prop where
  ret_eq : b = !(tasks_of w q).isEmpty
  trace_eq : w1.trace = w.trace ++ doer_trace prog cpu q (lock_state w) (tasks_of w q)
  main_eq : w1.smp_main = w.smp_main
  sys_eq : ∀ i, w1.smp_system[i]? = (w.smp_system[i]?).map fun s =>
    grow i (tasks_trace prog cpu (lock_state w) (tasks_of w q))
      (if i = q then { s with tasks := [] } else s)

/-- The entries `ev` stage exactly the callbacks of the tasks they execute, on
the completed list of core `cpu`, and raise no interrupt. -/
structure Tidy (cpu : Nat) (ev : List Entry) : Prop where
  ipi_eq : ipi_count ev = 0
  pushed_eq : ∀ i, pushed i ev = if i = cpu then callbacks (executed ev) else []
  raised_eq : ∀ i, raised i ev = (decide (i = cpu) && !(callbacks (executed ev)).isEmpty)

/-- What `while (revenant_task_doer(smp_system[q]));` does when it ends: the
operations `ev` were performed, queue `q` is empty and every other queue has
received what was submitted to it. -/
structure Drained (cpu q : Nat) (w w1 : World) (ev : List Entry) : Prop where
  trace_eq : w1.trace = w.trace ++ ev
  main_eq : w1.smp_main = w.smp_main
  tidy : Tidy cpu ev
  sys_eq : ∀ i, w1.smp_system[i]? = (w.smp_system[i]?).map fun s =>
    { grow i ev s with tasks := if i = q then [] else s.tasks ++ submitted i ev }

/-- The entries of the notification at the end of the handler, given the
callbacks staged by the two loops. -/
def notify_trace (cpu : Nat) (L : List (Bool × Bool)) (cbs : List Nat) : List Entry :=
  if cbs.isEmpty then [] else [⟨.bitmap_set cpu, L⟩, ⟨.send_bsp_intr, L⟩]

/-- What one invocation of `revenant_task_handler` on core `cpu` does: `ev1` are
the operations of the loop on the queue of `cpu`, `ev2` those of the loop on
queue 0, and `wa` is the state between the two loops. -/
structure Handled (prog : Prog) (cpu fuel : Nat) (w w1 wa : World) (ev1 ev2 : List Entry) :
    Prop where
  in_range : cpu < w.smp_system.length
  first : drain prog cpu cpu fuel (set_work_done cpu false w) = some wa
  first_trace : wa.trace = w.trace ++ ⟨.work_done_set cpu false, lock_state w⟩ :: ev1
  first_empty : tasks_of wa cpu = []
  second : ∃ wb, drain prog cpu 0 fuel wa = some wb ∧ wb.trace = wa.trace ++ ev2
  tidy1 : Tidy cpu ev1
  tidy2 : Tidy cpu ev2
  trace_eq : w1.trace = w.trace ++ (⟨.work_done_set cpu false, lock_state w⟩ :: (ev1 ++ ev2)
    ++ notify_trace cpu (lock_state w) (callbacks (executed (ev1 ++ ev2))))
  main_eq : w1.smp_main =
    if (callbacks (executed (ev1 ++ ev2))).isEmpty then w.smp_main
    else ({ w.smp_main with bitmap := w.smp_main.bitmap ||| (1 <<< cpu) } : smp_stuff)
  sys_eq : ∀ i, w1.smp_system[i]? = (w.smp_system[i]?).map fun (s : smp_system_stuff) =>
    { s with
      tasks :=
        if i = 0 then [] else if i = cpu then submitted i ev2
        else s.tasks ++ submitted i (ev1 ++ ev2)
      completed := s.completed ++ (if i = cpu then callbacks (executed (ev1 ++ ev2)) else [])
      work_done := if i = cpu then !(callbacks (executed (ev1 ++ ev2))).isEmpty else s.work_done }

/-- The pending-list lock of queue `q` exists and is free. -/
def tlock_free (w : World) (q : Nat) : Bool :=
  match w.smp_system[q]? with
  | some s => !s.tlock
  | none => false

/-- The completed-list lock of queue `c` exists and is free. -/
def flock_free (w : World) (c : Nat) : Bool :=
  match w.smp_system[c]? with
  | some s => !s.flock
  | none => false

/-- No work function of the tasks `ts` submits a task. -/
def no_spawn (prog : Prog) (ts : List smp_task) : Prop :=
  ∀ t ∈ ts, prog t.func = []

/-- The entries since `w`, in a later state `w1`. -/
def since (w w1 : World) : List Entry :=
  w1.trace.drop w.trace.length

/-- The entries of `while (revenant_task_doer(smp_system[q]));` when no work
function submits tasks: one pass for the batch, if there is one, and one pass
that finds the list empty. -/
def drain_trace (prog : Prog) (cpu q : Nat) (L : List (Bool × Bool)) (ts : List smp_task) :
    List Entry :=
  if ts.isEmpty then doer_trace prog cpu q L []
  else doer_trace prog cpu q L ts ++ doer_trace prog cpu q L []

/-- The pending-list lock of queue `q` is held at the moment of entry `e`. -/
def tlock_held (q : Nat) (e : Entry) : Bool :=
  match e.locks[q]? with
  | some p => p.1
  | none => false

/-- The completed-list lock of queue `c` is held at the moment of entry `e`. -/
def flock_held (c : Nat) (e : Entry) : Bool :=
  match e.locks[c]? with
  | some p => p.2
  | none => false

/-- The operations of the critical section of the pending-list lock of `q`: the
emptiness test, the swap and the release itself. -/
def Event.under_tlock (q : Nat) : Event → Bool
  | .tasks_empty q1 _ => q1 = q
  | .tasks_swap q1 => q1 = q
  | .tlock_unlock q1 => q1 = q
  | _ => false

/-- The operations of the critical section of the completed-list lock of `c`:
the append of a callback and the release itself. -/
def Event.under_flock (c : Nat) : Event → Bool
  | .completed_push c1 _ => c1 = c
  | .flock_unlock c1 => c1 = c
  | _ => false

/-- The invocation of a work function. -/
def Event.is_func : Event → Bool
  | .func _ => true
  | _ => false

/-- Entry `e` respects the locking discipline of a pass on queue `q` run by core
`cpu`: the pending-list lock of `q` is held exactly at the operations of its
critical section, the completed-list lock of `cpu` exactly at the operations of
its critical section, and a work function is invoked with neither lock held. -/
def disciplined (cpu q : Nat) (e : Entry) : Prop :=
  (tlock_held q e = true ↔ e.ev.under_tlock q = true) ∧
  (flock_held cpu e = true ↔ e.ev.under_flock cpu = true) ∧
  (e.ev.is_func = true → tlock_held q e = false ∧ flock_held cpu e = false)

/-- Nobody but the handler on core `cpu` produces or holds a lock: the three
locks the handler takes are free and no task of the two queues it drains
submits tasks. -/
def no_producers (prog : Prog) (cpu : Nat) (w : World) : Prop :=
  cpu < w.smp_system.length ∧ tlock_free w cpu = true ∧ tlock_free w 0 = true ∧
    flock_free w cpu = true ∧ no_spawn prog (tasks_of w cpu) ∧ no_spawn prog (tasks_of w 0)

instance (prog : Prog) (ts : List smp_task) : Decidable (no_spawn prog ts) :=
  inferInstanceAs (Decidable (∀ t ∈ ts, prog t.func = []))

instance (prog : Prog) (cpu : Nat) (w : World) : Decidable (no_producers prog cpu w) :=
  inferInstanceAs (Decidable (_ ∧ _))

/-- A table in which no work function submits anything. -/
def quiet_prog : Prog := fun _ => []

/-- Three queues: two callback-less tasks on queue 0, none on queue 1, three
tasks with callbacks on queue 2, whose flag is still set from before. -/
def scenario_world : World :=
  ⟨⟨0, 0, 0, 1, []⟩,
   [⟨false, false, [⟨10, none⟩, ⟨11, none⟩], [], false⟩,
    ⟨false, false, [], [], false⟩,
    ⟨false, false, [⟨1, some 21⟩, ⟨2, some 22⟩, ⟨3, some 23⟩], [7], true⟩], []⟩

/-- The state the handler of core 2 leaves from `scenario_world`. -/
def scenario_result : World :=
  (revenant_task_handler quiet_prog 2 2 scenario_world).getD scenario_world

/-- The state one pass of core 2 on its own queue leaves from `scenario_world`. -/
def scenario_pass : World :=
  match revenant_task_doer quiet_prog 2 2 scenario_world with
  | some r => r.2
  | none => scenario_world

/-- A table in which work function 0 submits a task to queue 1. -/
def respawn_prog : Prog := fun f => if f = 0 then [(1, ⟨1, none⟩)] else []

/-- Two queues: one task with work function 0 on queue 0, none on queue 1. -/
def respawn_world : World :=
  ⟨⟨0, 0, 0, 0, []⟩,
   [⟨false, false, [⟨0, none⟩], [], false⟩, ⟨false, false, [], [], false⟩], []⟩

/-- The state the handler of core 1 leaves from `respawn_world`. -/
def respawn_result : World :=
  (revenant_task_handler respawn_prog 1 2 respawn_world).getD respawn_world

/-! ## Bring-up of an application processor: `revenant_thread_main` -/

/-- The two handlers `revenant_thread_main` subscribes. -/
inductive Handler where
  | revenant_task_handler
  | start_timers
deriving DecidableEq

/-- The operations of `revenant_thread_main`, one per statement of the source. -/
inductive BootEvent where
  | sched_yield
  | global_lock
  | info2 (cpu_id : Int) (this_stack : Nat)
  | global_unlock
  | expects (holds : Bool)
  | init_local (cpu : Int)
  | subscribe (cpu : Int) (vector : Nat) (handler : Handler)
  | sti
  | apic_timer_init
  | clocks_init
  | rng_init
  | init_task
  | boot_barrier_increment
  | initialized_cpus_push (cpu : Int)
deriving DecidableEq

/-- One line of the bring-up log: the core that performed the operation (its
hardware-reported id), the operation, and the holder of the global SMP lock at
the moment the operation starts. -/
structure BootEntry where
  core : Int
  ev : BootEvent
  holder : Option Int
deriving DecidableEq

/-- The state shared by the cores during bring-up: `smp_main`, the global SMP
lock (`none` when free, else the id of the core holding it), whether the process
has been terminated by a failed contract, and the log (ghost state). -/
structure Boot where
  smp_main : smp_stuff
  global_lock : Option Int
  halted : Bool
  log : List BootEntry
deriving DecidableEq

/-- An application processor inside `revenant_thread_main(cpu)`: the argument
`cpu`, the id `SMP::cpu_id()` reports on this core, and the statement it is at
(0 to 16; 17 is the idle loop). -/
structure AP where
  cpu : Int
  hw : Int
  pc : Nat
deriving DecidableEq

/-- The cores in bring-up and the state they share. -/
structure Machine where
  aps : List AP
  shared : Boot
deriving DecidableEq

/-- The value of `this_stack = smp_main.stack_base + cpu * smp_main.stack_size`,
a `uintptr_t`, in 64-bit arithmetic. -/
def this_stack (m : smp_stuff) (cpu : Int) : Nat :=
  (((m.stack_base : Int) + cpu * (m.stack_size : Int)) % 2 ^ 64).toNat

/-- Operation `e` of core `core` is written to the log, with the holder of the
global lock as it is; the log is never read by the code. -/
def log_ev (core : Int) (e : BootEvent) (s : Boot) : Boot :=
  { s with log := s.log ++ [⟨core, e, s.global_lock⟩] }

/-- The core moves on to its next statement. -/
def AP.next (a : AP) : AP := { a with pc := a.pc + 1 }

/-- The call `SMP::global_lock()`: taken when free, otherwise the core keeps
spinning. -/
def global_lock (a : AP) (s : Boot) : AP × Boot :=
  match s.global_lock with
  | none => (a.next, { log_ev a.hw .global_lock s with global_lock := some a.hw })
  | some _ => (a, s)

/-- The call `SMP::global_unlock()`. -/
def global_unlock (a : AP) (s : Boot) : AP × Boot :=
  (a.next, { log_ev a.hw .global_unlock s with global_lock := none })

/-- Modelled from the spec: the macro `Expects` is not among the sources; a
failed contract is "fatal, process-terminating".  `Expects(cpu == SMP::cpu_id())`. -/
def expects_cpu_id (a : AP) (s : Boot) : AP × Boot :=
  if a.cpu = a.hw then (a.next, log_ev a.hw (.expects true) s)
  else (a, { log_ev a.hw (.expects false) s with halted := true })

/-- The statement of `revenant_thread_main(cpu)` that core `a` is at, executed
on the shared state; nothing runs once the process is terminated. -/
def thread_step (a : AP) (s : Boot) : AP × Boot :=
  if s.halted then (a, s)
  else
    match a.pc with
    -- sched_yield();
    | 0 => (a.next, log_ev a.hw .sched_yield s)
    -- SMP::global_lock();
    | 1 => global_lock a s
    -- INFO2("AP %d started at %p", SMP::cpu_id(), (void*) this_stack);
    | 2 => (a.next, log_ev a.hw (.info2 a.hw (this_stack s.smp_main a.cpu)) s)
    -- SMP::global_unlock();
    | 3 => global_unlock a s
    -- Expects(cpu == SMP::cpu_id());
    | 4 => expects_cpu_id a s
    -- auto& ev = Events::get(cpu); ev.init_local();
    | 5 => (a.next, log_ev a.hw (.init_local a.cpu) s)
    -- ev.subscribe(0, revenant_task_handler);
    | 6 => (a.next, log_ev a.hw (.subscribe a.cpu 0 .revenant_task_handler) s)
    -- ev.subscribe(1, APIC_Timer::start_timers);
    | 7 => (a.next, log_ev a.hw (.subscribe a.cpu 1 .start_timers) s)
    -- asm volatile("sti");
    | 8 => (a.next, log_ev a.hw .sti s)
    -- APIC_Timer::init();
    | 9 => (a.next, log_ev a.hw .apic_timer_init s)
    -- Clocks::init();
    | 10 => (a.next, log_ev a.hw .clocks_init s)
    -- RNG::get().init();
    | 11 => (a.next, log_ev a.hw .rng_init s)
    -- SMP::init_task();
    | 12 => (a.next, log_ev a.hw .init_task s)
    -- smp_main.boot_barrier.increment();
    | 13 =>
      let s1 := log_ev a.hw .boot_barrier_increment s
      (a.next, { s1 with smp_main :=
        { s1.smp_main with boot_barrier := s1.smp_main.boot_barrier + 1 } })
    -- SMP::global_lock();
    | 14 => global_lock a s
    -- x86::smp_main.initialized_cpus.push_back(cpu);
    | 15 =>
      let s1 := log_ev a.hw (.initialized_cpus_push a.cpu) s
      (a.next, { s1 with smp_main :=
        { s1.smp_main with initialized_cpus := s1.smp_main.initialized_cpus ++ [a.cpu] } })
    -- SMP::global_unlock();
    | 16 => global_unlock a s
    -- while (true) { Events::get().process_events(); os::halt(); }
    | _ => (a, s)

/-- The statement at which a core is in its idle loop
(`while (true) { process_events(); os::halt(); }`). -/
def idle_pc : Nat := 17

/-- The next `n` statements of one core, with no other core running. -/
def run_thread : Nat → AP → Boot → AP × Boot
  | 0, a, s => (a, s)
  | n + 1, a, s => let r := thread_step a s; run_thread n r.1 r.2

/-- The function `revenant_thread_main(cpu)` on the core that reports id `hw`,
alone, up to its idle loop or the termination of the process: 17 statements. -/
def revenant_thread_main (cpu hw : Int) (s : Boot) : AP × Boot :=
  run_thread 17 ⟨cpu, hw, 0⟩ s

/-- Core number `i` of the machine executes its next statement. -/
def sched_step (i : Nat) (m : Machine) : Machine :=
  match m.aps[i]? with
  | none => m
  | some a =>
    let r := thread_step a m.shared
    ⟨m.aps.set i r.1, r.2⟩

/-- The cores execute statements in the order the schedule gives. -/
def run_schedule : List Nat → Machine → Machine
  | [], m => m
  | i :: r, m => run_schedule r (sched_step i m)

/-- The machine at the start of bring-up: every AP enters
`revenant_thread_main` with the id its hardware reports, the boot barrier is 0
and no core is registered. -/
def boot_machine (ids : List Int) (stack_base stack_size bitmap : Nat) : Machine :=
  ⟨ids.map fun c => ⟨c, c, 0⟩, ⟨⟨stack_base, stack_size, 0, bitmap, []⟩, none, false, []⟩⟩

/-- The operations of `revenant_thread_main(cpu)` up to the idle loop, in
program order. -/
def thread_events (m : smp_stuff) (cpu : Int) : List BootEvent :=
  [.sched_yield, .global_lock, .info2 cpu (this_stack m cpu), .global_unlock, .expects true,
   .init_local cpu, .subscribe cpu 0 .revenant_task_handler, .subscribe cpu 1 .start_timers,
   .sti, .apic_timer_init, .clocks_init, .rng_init, .init_task, .boot_barrier_increment,
   .global_lock, .initialized_cpus_push cpu, .global_unlock]

/-- The operations core `c` performed, in order. -/
def events_of (c : Int) (log : List BootEntry) : List BootEvent :=
  (log.filter fun e => e.core = c).map fun e => e.ev

/-- The log of a core `hw` that runs `revenant_thread_main(cpu)` alone from a
state with lock holder `none`, up to and including the identity check. -/
def check_log (m : smp_stuff) (cpu hw : Int) : List BootEntry :=
  [⟨hw, .sched_yield, none⟩, ⟨hw, .global_lock, none⟩,
   ⟨hw, .info2 hw (this_stack m cpu), some hw⟩, ⟨hw, .global_unlock, some hw⟩,
   ⟨hw, .expects (decide (cpu = hw)), none⟩]

/-- The log of the same core after a passed identity check, up to the idle
loop. -/
def ready_log (cpu hw : Int) : List BootEntry :=
  [⟨hw, .init_local cpu, none⟩, ⟨hw, .subscribe cpu 0 .revenant_task_handler, none⟩,
   ⟨hw, .subscribe cpu 1 .start_timers, none⟩, ⟨hw, .sti, none⟩,
   ⟨hw, .apic_timer_init, none⟩, ⟨hw, .clocks_init, none⟩, ⟨hw, .rng_init, none⟩,
   ⟨hw, .init_task, none⟩, ⟨hw, .boot_barrier_increment, none⟩, ⟨hw, .global_lock, none⟩,
   ⟨hw, .initialized_cpus_push cpu, some hw⟩, ⟨hw, .global_unlock, some hw⟩]

/-- What statement `pc` of `revenant_thread_main(cpu)` does to `smp_main`. -/
def effect (pc : Nat) (cpu : Int) (m : smp_stuff) : smp_stuff :=
  if pc = 13 then { m with boot_barrier := m.boot_barrier + 1 }
  else if pc = 15 then { m with initialized_cpus := m.initialized_cpus ++ [cpu] }
  else m

/-- The invariant of bring-up for APs with arguments `ids` whose hardware
reports the same ids: the counter counts the cores past the increment, the list
holds the cores past the append, and every core has performed the first `pc`
operations of its program. -/
structure Booting (ids : List Int) (m0 : smp_stuff) (m : Machine) : Prop where
  cpus : m.aps.map (fun a => a.cpu) = ids
  hws : ∀ a ∈ m.aps, a.hw = a.cpu
  pcs : ∀ a ∈ m.aps, a.pc ≤ 17
  running : m.shared.halted = false
  base_eq : m.shared.smp_main.stack_base = m0.stack_base
  size_eq : m.shared.smp_main.stack_size = m0.stack_size
  barrier : m.shared.smp_main.boot_barrier = (m.aps.filter fun a => 13 < a.pc).length
  registered : m.shared.smp_main.initialized_cpus.Perm
    ((m.aps.filter fun a => 15 < a.pc).map fun a => a.cpu)
  logs : ∀ a ∈ m.aps, events_of a.hw m.shared.log = (thread_events m0 a.cpu).take a.pc

/-- The schedule in which the cores `0` to `n - 1` run one after another, each
for its 17 statements. -/
def solo_schedule : Nat → List Nat
  | 0 => []
  | n + 1 => solo_schedule n ++ List.replicate 17 n

/-- A state of bring-up before any core has started. -/
def boot_start : Boot := ⟨⟨4096, 256, 0, 0, []⟩, none, false, []⟩

end x86

namespace http

/-! ## The body of an HTTP message -/

variable {H : Type}

/-- Modelled from the spec: the class `Header` and the constant
`header::Content_Length` are not among the sources; the member functions that
`Message` calls are taken as parameters over an arbitrary type `H` of header
sets. -/
structure Header (H : Type) where
  Content_Length : String
  make : Nat → H
  add_field : H → String → String → H
  set_field : H → String → String → H
  erase : H → String → H
  clear : H → H

/-- The data members of `http::Message`; a `std::string` is a string whose
characters stand for the `char`s, so that `size()` is the length. -/
structure Message (H : Type) where
  header_fields_ : H
  message_body_ : String
  content_length_ : String
  field_ : String

/-- The constructor `Message::Message(limit)`. -/
def Message.make (hd : Header H) (limit : Nat) : Message H :=
  ⟨hd.make limit, "", "", ""⟩

/-- The member function `Message::add_body`. -/
def Message.add_body (hd : Header H) (m : Message H) (message_body : String) : Message H :=
  if message_body.isEmpty then m
  else
    let m1 := { m with
      message_body_ := message_body
      content_length_ := Nat.repr message_body.length }
    { m1 with header_fields_ :=
      hd.add_field m1.header_fields_ hd.Content_Length m1.content_length_ }

/-- The member function `Message::add_chunk`. -/
def Message.add_chunk (hd : Header H) (m : Message H) (chunk : String) : Message H :=
  if chunk.isEmpty then m
  else
    let m1 := { m with message_body_ := m.message_body_ ++ chunk }
    let m2 := { m1 with content_length_ := Nat.repr m1.message_body_.length }
    { m2 with header_fields_ :=
      hd.set_field m2.header_fields_ hd.Content_Length m2.content_length_ }

/-- The member function `Message::has_body`. -/
def Message.has_body (m : Message H) : Bool :=
  !m.message_body_.isEmpty

/-- The member function `Message::body`. -/
def Message.body (m : Message H) : String :=
  m.message_body_

/-- The member function `Message::clear_body`. -/
def Message.clear_body (hd : Header H) (m : Message H) : Message H :=
  { m with message_body_ := "", header_fields_ := hd.erase m.header_fields_ hd.Content_Length }

/-- The member function `Message::reset`. -/
def Message.reset (hd : Header H) (m : Message H) : Message H :=
  Message.clear_body hd { m with header_fields_ := hd.clear m.header_fields_ }

/-- A call of one of the four member functions that change the body. -/
inductive Call where
  | add_body (message_body : String)
  | add_chunk (chunk : String)
  | clear_body
  | reset

/-- The message after a call. -/
def Message.call (hd : Header H) (m : Message H) : Call → Message H
  | .add_body b => m.add_body hd b
  | .add_chunk c => m.add_chunk hd c
  | .clear_body => m.clear_body hd
  | .reset => m.reset hd

/-- The message after a sequence of calls. -/
def Message.calls (hd : Header H) (m : Message H) (cs : List Call) : Message H :=
  cs.foldl (Message.call hd) m

/-- A header set that is the list of its fields, for examples. -/
def list_header : Header (List (String × String)) where
  Content_Length := "Content-Length"
  make := fun _ => []
  add_field := fun h k v => h ++ [(k, v)]
  set_field := fun h k v => (h.filter fun p => p.1 != k) ++ [(k, v)]
  erase := fun h k => h.filter fun p => p.1 != k
  clear := fun _ => []

/-- Whenever the message has a body, the stored content-length string is the
decimal rendering of the size of the body. -/
def Message.length_ok (m : Message H) : Prop :=
  m.has_body = true → m.content_length_ = Nat.repr m.body.length

end http

namespace x86

/-! ## The dispatcher: lemmas and claims -/

theorem executed_append (a b : List Entry) : executed (a ++ b) = executed a ++ executed b := by
  simp [executed, List.filterMap_append]

theorem submitted_append (q : Nat) (a b : List Entry) :
    submitted q (a ++ b) = submitted q a ++ submitted q b := by
  simp [submitted, List.filterMap_append]

theorem ipi_count_append (a b : List Entry) : ipi_count (a ++ b) = ipi_count a + ipi_count b := by
  simp [ipi_count, List.countP_append]

theorem callbacks_append (a b : List smp_task) : callbacks (a ++ b) = callbacks a ++ callbacks b := by
  simp [callbacks, List.filterMap_append]

theorem pushed_append (i : Nat) (a b : List Entry) :
    pushed i (a ++ b) = pushed i a ++ pushed i b := by
  simp [pushed, List.filterMap_append]

theorem raised_append (i : Nat) (a b : List Entry) :
    raised i (a ++ b) = (raised i a || raised i b) := by
  simp [raised, List.any_append]

theorem grow_nil (i : Nat) (s : smp_system_stuff) : grow i [] s = s := by
  simp [grow, pushed, submitted, raised]

theorem grow_grow (i : Nat) (a b : List Entry) (s : smp_system_stuff) :
    grow i b (grow i a s) = grow i (a ++ b) s := by
  simp [grow, pushed_append, submitted_append, raised_append, Bool.or_assoc]

theorem Run.refl (w : World) : Run w w [] :=
  ⟨by simp, rfl, fun i => by
    have h : grow i [] = id := funext fun s => grow_nil i s
    rw [h, Option.map_id, id]⟩

theorem Run.trans {w w1 w2 : World} {a b : List Entry}
    (h1 : Run w w1 a) (h2 : Run w1 w2 b) : Run w w2 (a ++ b) :=
  ⟨by rw [h2.trace_eq, h1.trace_eq, List.append_assoc],
   by rw [h2.main_eq, h1.main_eq],
   fun i => by
    rw [h2.sys_eq, h1.sys_eq, Option.map_map]
    congr 1
    funext s
    exact grow_grow i a b s⟩

theorem lock_state_getElem? (w : World) (i : Nat) :
    (lock_state w)[i]? = (w.smp_system[i]?).map fun s => (s.tlock, s.flock) := by
  simp [lock_state]

theorem lock_state_congr {w w1 : World} (f : Nat → smp_system_stuff → smp_system_stuff)
    (hf : ∀ i s, (f i s).tlock = s.tlock ∧ (f i s).flock = s.flock)
    (h : ∀ i, w1.smp_system[i]? = (w.smp_system[i]?).map (f i)) :
    lock_state w1 = lock_state w := by
  apply List.ext_getElem?
  intro i
  rw [lock_state_getElem?, lock_state_getElem?, h, Option.map_map]
  cases w.smp_system[i]? with
  | none => rfl
  | some s => simp [(hf i s).1, (hf i s).2]

theorem Run.locks_kept {w w1 : World} {ev : List Entry} (h : Run w w1 ev) :
    lock_state w1 = lock_state w :=
  lock_state_congr (fun i => grow i ev) (fun _ _ => ⟨rfl, rfl⟩) h.sys_eq

@[simp]
theorem modify_system_getElem? (i j : Nat) (f : smp_system_stuff → smp_system_stuff)
    (w : World) :
    (modify_system i f w).smp_system[j]? = (w.smp_system[j]?).map fun s => if i = j then f s else s := by
  simp [modify_system, List.getElem?_modify]

@[simp]
theorem modify_system_trace (i : Nat) (f : smp_system_stuff → smp_system_stuff) (w : World) :
    (modify_system i f w).trace = w.trace := rfl

@[simp]
theorem modify_system_main (i : Nat) (f : smp_system_stuff → smp_system_stuff) (w : World) :
    (modify_system i f w).smp_main = w.smp_main := rfl

@[simp]
theorem emit_system (e : Event) (w : World) : (emit e w).smp_system = w.smp_system := rfl

@[simp]
theorem emit_trace (e : Event) (w : World) :
    (emit e w).trace = w.trace ++ [⟨e, lock_state w⟩] := rfl

@[simp]
theorem emit_main (e : Event) (w : World) : (emit e w).smp_main = w.smp_main := rfl

@[simp]
theorem lock_state_emit (e : Event) (w : World) : lock_state (emit e w) = lock_state w := rfl

theorem add_task_run (q : Nat) (t : smp_task) (w w1 : World) (h : add_task q t w = some w1) :
    Run w w1 [⟨.add_task q t, lock_state w⟩] := by
  unfold add_task at h
  split at h
  · exact absurd h (by simp)
  · split at h
    · exact absurd h (by simp)
    · injection h with h
      subst h
      refine ⟨by simp, by simp, fun i => ?_⟩
      simp only [modify_system_getElem?, emit_system]
      congr 1
      funext s
      by_cases hq : q = i <;> simp [grow, submitted, pushed, raised, hq]

theorem add_tasks_run (l : List (Nat × smp_task)) :
    ∀ (w w1 : World), add_tasks l w = some w1 → Run w w1 (add_trace (lock_state w) l) := by
  induction l with
  | nil =>
    intro w w1 h
    simp only [add_tasks, Option.some.injEq] at h
    subst h
    exact Run.refl w
  | cons qt r ih =>
    intro w w1 h
    obtain ⟨q, t⟩ := qt
    simp only [add_tasks, Option.bind_eq_some] at h
    obtain ⟨w2, h2, h3⟩ := h
    have r1 := add_task_run q t w w2 h2
    have r2 := ih w2 w1 h3
    rw [r1.locks_kept] at r2
    exact r1.trans r2

theorem lock_state_flock (c : Nat) (w : World) :
    lock_state (modify_system c (fun s => { s with flock := true }) w)
      = with_flock c (lock_state w) := by
  apply List.ext_getElem?
  intro i
  simp only [lock_state_getElem?, with_flock, List.getElem?_modify, modify_system_getElem?,
    Option.map_map]
  cases w.smp_system[i]? with
  | none => rfl
  | some s => by_cases h : c = i <;> simp [h]

theorem lock_state_tlock (q : Nat) (w : World) :
    lock_state (modify_system q (fun s => { s with tlock := true }) w)
      = with_tlock q (lock_state w) := by
  apply List.ext_getElem?
  intro i
  simp only [lock_state_getElem?, with_tlock, List.getElem?_modify, modify_system_getElem?,
    Option.map_map]
  cases w.smp_system[i]? with
  | none => rfl
  | some s => by_cases h : q = i <;> simp [h]

theorem lock_state_keep (c : Nat) (f : smp_system_stuff → smp_system_stuff) (w : World)
    (hf : ∀ s, (f s).tlock = s.tlock ∧ (f s).flock = s.flock) :
    lock_state (modify_system c f w) = lock_state w := by
  apply lock_state_congr (fun i s => if c = i then f s else s)
  · intro i s
    by_cases h : c = i <;> simp [h, hf s]
  · intro i
    simp

@[simp]
theorem lock_state_set_work_done (c : Nat) (b : Bool) (w : World) :
    lock_state (set_work_done c b w) = lock_state w := by
  unfold set_work_done
  refine (lock_state_keep c _ _ ?_).trans (lock_state_emit _ _)
  intro s
  exact ⟨rfl, rfl⟩

@[simp]
theorem lock_state_completed_push (c d : Nat) (w : World) :
    lock_state (completed_push c d w) = lock_state w := by
  unfold completed_push
  refine (lock_state_keep c _ _ ?_).trans (lock_state_emit _ _)
  intro s
  exact ⟨rfl, rfl⟩

@[simp]
theorem lock_state_tasks_swap (q : Nat) (w : World) :
    lock_state (tasks_swap q w) = lock_state w := by
  unfold tasks_swap
  refine (lock_state_keep q _ _ ?_).trans (lock_state_emit _ _)
  intro s
  exact ⟨rfl, rfl⟩

@[simp]
theorem completed_push_trace (c d : Nat) (w : World) :
    (completed_push c d w).trace = w.trace ++ [⟨.completed_push c d, lock_state w⟩] := rfl

theorem done_run (cpu d : Nat) (w w2 : World) (h : flock_lock cpu w = some w2) :
    Run w (set_work_done cpu true (flock_unlock cpu (completed_push cpu d w2)))
      (done_trace cpu (lock_state w) (some d)) := by
  unfold flock_lock at h
  split at h
  · exact absurd h (by simp)
  · rename_i s hs
    split at h
    · exact absurd h (by simp)
    · rename_i hfree
      injection h with h
      subst h
      have hsys : ∀ i, (set_work_done cpu true (flock_unlock cpu (completed_push cpu d
          (modify_system cpu (fun s => { s with flock := true })
            (emit (.flock_lock cpu) w))))).smp_system[i]?
          = (w.smp_system[i]?).map (grow i (done_trace cpu (lock_state w) (some d))) := by
        intro i
        by_cases hi : cpu = i
        · subst hi
          have hf : s.flock = false := by simpa using hfree
          simp [set_work_done, flock_unlock, completed_push, hs, grow, done_trace, pushed,
            submitted, raised, hf]
        · simp only [set_work_done, flock_unlock, completed_push, modify_system_getElem?,
            emit_system, Option.map_map]
          congr 1
          funext s1
          simp [hi, grow, done_trace, pushed, submitted, raised]
      refine ⟨?_, rfl, hsys⟩
      have hl := lock_state_congr (fun i => grow i (done_trace cpu (lock_state w) (some d)))
        (fun _ _ => ⟨rfl, rfl⟩) hsys
      rw [lock_state_set_work_done] at hl
      simp only [flock_unlock] at hl
      simp [set_work_done, flock_unlock, done_trace, lock_state_flock, hl]

theorem emit_func_run (t : smp_task) (w : World) :
    Run w (emit (.func t) w) [⟨.func t, lock_state w⟩] := by
  refine ⟨rfl, rfl, fun i => ?_⟩
  have h : grow i [⟨.func t, lock_state w⟩] = id := by
    funext s
    simp [grow, pushed, submitted, raised]
  rw [h, Option.map_id, id, emit_system]

theorem run_task_run (prog : Prog) (cpu : Nat) (t : smp_task) (w w1 : World)
    (h : run_task prog cpu t w = some w1) :
    Run w w1 (task_trace prog cpu (lock_state w) t) := by
  simp only [run_task, task_func, Option.bind_eq_some] at h
  obtain ⟨w2, h2, h3⟩ := h
  have r1 := (emit_func_run t w).trans (add_tasks_run _ _ _ h2)
  rw [lock_state_emit] at r1
  cases hd : t.done with
  | none =>
    rw [hd] at h3
    simp only [Option.some.injEq] at h3
    subst h3
    simpa [task_trace, hd, done_trace] using r1
  | some d =>
    rw [hd] at h3
    simp only [Option.bind_eq_some, Option.some.injEq] at h3
    obtain ⟨w3, h4, h5⟩ := h3
    subst h5
    have r2 := done_run cpu d w2 w3 h4
    rw [r1.locks_kept] at r2
    have r3 := r1.trans r2
    simpa [task_trace, hd] using r3

theorem for_tasks_run (prog : Prog) (cpu : Nat) (ts : List smp_task) :
    ∀ (w w1 : World), for_tasks prog cpu ts w = some w1 →
      Run w w1 (tasks_trace prog cpu (lock_state w) ts) := by
  induction ts with
  | nil =>
    intro w w1 h
    simp only [for_tasks, Option.some.injEq] at h
    subst h
    exact Run.refl w
  | cons t r ih =>
    intro w w1 h
    simp only [for_tasks, Option.bind_eq_some] at h
    obtain ⟨w2, h2, h3⟩ := h
    have r1 := run_task_run prog cpu t w w2 h2
    have r2 := ih w2 w1 h3
    rw [r1.locks_kept] at r2
    exact r1.trans r2

theorem executed_add_trace (L : List (Bool × Bool)) (l : List (Nat × smp_task)) :
    executed (add_trace L l) = [] := by
  induction l with
  | nil => rfl
  | cons a r ih => simp [add_trace, executed]

theorem pushed_add_trace (i : Nat) (L : List (Bool × Bool)) (l : List (Nat × smp_task)) :
    pushed i (add_trace L l) = [] := by
  induction l with
  | nil => rfl
  | cons a r ih => simp [add_trace, pushed]

theorem raised_add_trace (i : Nat) (L : List (Bool × Bool)) (l : List (Nat × smp_task)) :
    raised i (add_trace L l) = false := by
  induction l with
  | nil => rfl
  | cons a r ih => simpa [add_trace, raised] using ih

theorem ipi_count_add_trace (L : List (Bool × Bool)) (l : List (Nat × smp_task)) :
    ipi_count (add_trace L l) = 0 := by
  induction l with
  | nil => rfl
  | cons a r ih => simp [add_trace, ipi_count]

theorem executed_task_trace (prog : Prog) (cpu : Nat) (L : List (Bool × Bool)) (t : smp_task) :
    executed (task_trace prog cpu L t) = [t] := by
  have h : executed (done_trace cpu L t.done) = [] := by
    cases t.done <;> simp [done_trace, executed]
  rw [task_trace, ← List.singleton_append, List.append_assoc, executed_append, executed_append,
    executed_add_trace, h]
  simp [executed]

theorem pushed_task_trace (prog : Prog) (cpu i : Nat) (L : List (Bool × Bool)) (t : smp_task) :
    pushed i (task_trace prog cpu L t) = if i = cpu then callbacks [t] else [] := by
  rw [task_trace, ← List.singleton_append, List.append_assoc, pushed_append, pushed_append,
    pushed_add_trace]
  by_cases h : cpu = i
  · subst h
    cases hd : t.done <;> simp [done_trace, pushed, callbacks, hd]
  · have h2 : ¬ i = cpu := fun e => h e.symm
    cases hd : t.done <;> simp [done_trace, pushed, callbacks, hd, h, h2]

theorem raised_task_trace (prog : Prog) (cpu i : Nat) (L : List (Bool × Bool)) (t : smp_task) :
    raised i (task_trace prog cpu L t) = (decide (i = cpu) && !(callbacks [t]).isEmpty) := by
  rw [task_trace, ← List.singleton_append, List.append_assoc, raised_append, raised_append,
    raised_add_trace]
  by_cases h : cpu = i
  · subst h
    cases hd : t.done <;> simp [done_trace, raised, callbacks, hd]
  · have h2 : ¬ i = cpu := fun e => h e.symm
    cases hd : t.done <;> simp [done_trace, raised, callbacks, hd, h, h2]

theorem ipi_count_task_trace (prog : Prog) (cpu : Nat) (L : List (Bool × Bool)) (t : smp_task) :
    ipi_count (task_trace prog cpu L t) = 0 := by
  rw [task_trace, ← List.singleton_append, List.append_assoc, ipi_count_append, ipi_count_append,
    ipi_count_add_trace]
  cases hd : t.done <;> simp [done_trace, ipi_count, hd]

theorem executed_tasks_trace (prog : Prog) (cpu : Nat) (L : List (Bool × Bool))
    (ts : List smp_task) : executed (tasks_trace prog cpu L ts) = ts := by
  induction ts with
  | nil => rfl
  | cons t r ih => rw [tasks_trace, executed_append, executed_task_trace, ih]; rfl

theorem ipi_count_tasks_trace (prog : Prog) (cpu : Nat) (L : List (Bool × Bool))
    (ts : List smp_task) : ipi_count (tasks_trace prog cpu L ts) = 0 := by
  induction ts with
  | nil => rfl
  | cons t r ih => rw [tasks_trace, ipi_count_append, ipi_count_task_trace, ih]

theorem tasks_of_eq {w : World} {q : Nat} {s : smp_system_stuff} (h : w.smp_system[q]? = some s) :
    tasks_of w q = s.tasks := by
  simp [tasks_of, h]

@[simp]
theorem tasks_swap_trace (q : Nat) (w : World) :
    (tasks_swap q w).trace = w.trace ++ [⟨.tasks_swap q, lock_state w⟩] := rfl

@[simp]
theorem tlock_unlock_trace (q : Nat) (w : World) :
    (tlock_unlock q w).trace = w.trace ++ [⟨.tlock_unlock q, lock_state w⟩] := rfl

theorem doer_pass (prog : Prog) (cpu q : Nat) (w : World) (b : Bool) (w1 : World)
    (h : revenant_task_doer prog cpu q w = some (b, w1)) : Pass prog cpu q w b w1 := by
  simp only [revenant_task_doer, tlock_lock, Option.bind_eq_some] at h
  obtain ⟨w2, h2, h3⟩ := h
  split at h2
  · exact absurd h2 (by simp)
  · rename_i s hs
    split at h2
    · exact absurd h2 (by simp)
    · rename_i hfree
      have hf : s.tlock = false := by simpa using hfree
      injection h2 with h2
      subst h2
      have ht : tasks_of (emit (.tasks_empty q (tasks_of (modify_system q
          (fun s => { s with tlock := true }) (emit (.tlock_lock q) w)) q).isEmpty)
          (modify_system q (fun s => { s with tlock := true }) (emit (.tlock_lock q) w))) q
          = tasks_of w q := by
        simp [tasks_of, hs]
      have ht2 : tasks_of (modify_system q
          (fun s => { s with tlock := true }) (emit (.tlock_lock q) w)) q = tasks_of w q := by
        simp [tasks_of, hs]
      rw [ht, ht2] at h3
      split at h3
      · rename_i hemp
        simp only [Option.some.injEq, Prod.mk.injEq] at h3
        obtain ⟨hb, hw⟩ := h3
        subst hb hw
        have hnil : tasks_of w q = [] := by simpa using hemp
        refine ⟨by simp [hemp], ?_, rfl, fun i => ?_⟩
        · simp [doer_trace, hemp, lock_state_tlock]
        · rw [hnil]
          simp only [tasks_trace]
          by_cases hi : i = q
          · subst hi
            have : s.tasks = [] := by rw [← tasks_of_eq hs]; exact hnil
            simp [tlock_unlock, hs, grow, pushed, submitted, raised]
            cases s
            simp_all
          · have hi2 : ¬ q = i := fun e => hi e.symm
            simp only [tlock_unlock, modify_system_getElem?, emit_system, Option.map_map]
            congr 1
            funext s1
            simp [hi, hi2, grow, pushed, submitted, raised]
      · rename_i hemp
        simp only [Option.bind_eq_some, Option.some.injEq, Prod.mk.injEq] at h3
        obtain ⟨w4, h4, hb, hw⟩ := h3
        subst hb hw
        have r := for_tasks_run prog cpu _ _ _ h4
        have hsys : ∀ i, (tlock_unlock q (tasks_swap q (emit (.tasks_empty q (tasks_of w q).isEmpty)
            (modify_system q (fun s => { s with tlock := true })
              (emit (.tlock_lock q) w))))).smp_system[i]?
            = (w.smp_system[i]?).map fun s => if i = q then { s with tasks := [] } else s := by
          intro i
          by_cases hi : i = q
          · subst hi
            simp [tlock_unlock, tasks_swap, hs, hf]
          · have hi2 : ¬ q = i := fun e => hi e.symm
            simp only [tlock_unlock, tasks_swap, modify_system_getElem?, emit_system,
              Option.map_map]
            congr 1
            funext s1
            simp [hi, hi2]
        have hl : lock_state (tlock_unlock q (tasks_swap q (emit (.tasks_empty q
            (tasks_of w q).isEmpty) (modify_system q (fun s => { s with tlock := true })
              (emit (.tlock_lock q) w))))) = lock_state w := by
          refine lock_state_congr (fun i s => if i = q then { s with tasks := [] } else s) ?_ hsys
          intro i s1
          by_cases hi : i = q <;> simp [hi]
        rw [hl] at r
        refine ⟨by simp [hemp], ?_, ?_, fun i => ?_⟩
        · rw [r.trace_eq]
          simp [doer_trace, hemp, lock_state_tlock]
        · rw [r.main_eq]
          rfl
        · rw [r.sys_eq, hsys, Option.map_map]
          rfl

theorem submitted_doer_trace (prog : Prog) (cpu q i : Nat) (L : List (Bool × Bool))
    (ts : List smp_task) :
    submitted i (doer_trace prog cpu q L ts) = submitted i (tasks_trace prog cpu L ts) := by
  cases ts with
  | nil => simp [doer_trace, tasks_trace, submitted]
  | cons t r => simp [doer_trace, submitted]

theorem pushed_doer_trace (prog : Prog) (cpu q i : Nat) (L : List (Bool × Bool))
    (ts : List smp_task) :
    pushed i (doer_trace prog cpu q L ts) = pushed i (tasks_trace prog cpu L ts) := by
  cases ts with
  | nil => simp [doer_trace, tasks_trace, pushed]
  | cons t r => simp [doer_trace, pushed]

theorem raised_doer_trace (prog : Prog) (cpu q i : Nat) (L : List (Bool × Bool))
    (ts : List smp_task) :
    raised i (doer_trace prog cpu q L ts) = raised i (tasks_trace prog cpu L ts) := by
  cases ts with
  | nil => simp [doer_trace, tasks_trace, raised]
  | cons t r => simp [doer_trace, raised]

theorem executed_doer_trace (prog : Prog) (cpu q : Nat) (L : List (Bool × Bool))
    (ts : List smp_task) : executed (doer_trace prog cpu q L ts) = ts := by
  cases ts with
  | nil => simp [doer_trace, executed]
  | cons t r =>
    have h := executed_tasks_trace prog cpu L (t :: r)
    simpa [doer_trace, executed] using h

theorem ipi_count_doer_trace (prog : Prog) (cpu q : Nat) (L : List (Bool × Bool))
    (ts : List smp_task) : ipi_count (doer_trace prog cpu q L ts) = 0 := by
  cases ts with
  | nil => simp [doer_trace, ipi_count]
  | cons t r =>
    have h := ipi_count_tasks_trace prog cpu L (t :: r)
    simpa [doer_trace, ipi_count] using h

theorem Tidy.nil (cpu : Nat) : Tidy cpu [] :=
  ⟨rfl, fun i => by simp [pushed, executed, callbacks], fun i => by
    simp [raised, executed, callbacks]⟩

theorem Tidy.append {cpu : Nat} {a b : List Entry} (ha : Tidy cpu a) (hb : Tidy cpu b) :
    Tidy cpu (a ++ b) := by
  refine ⟨?_, fun i => ?_, fun i => ?_⟩
  · rw [ipi_count_append, ha.ipi_eq, hb.ipi_eq]
  · rw [pushed_append, ha.pushed_eq, hb.pushed_eq, executed_append, callbacks_append]
    by_cases h : i = cpu <;> simp [h]
  · rw [raised_append, ha.raised_eq, hb.raised_eq, executed_append, callbacks_append]
    by_cases h : i = cpu <;> simp [h]
    cases callbacks (executed a) <;> simp

theorem Tidy.task (prog : Prog) (cpu : Nat) (L : List (Bool × Bool)) (t : smp_task) :
    Tidy cpu (task_trace prog cpu L t) :=
  ⟨ipi_count_task_trace prog cpu L t,
   fun i => by rw [pushed_task_trace, executed_task_trace],
   fun i => by rw [raised_task_trace, executed_task_trace]⟩

theorem Tidy.tasks (prog : Prog) (cpu : Nat) (L : List (Bool × Bool)) (ts : List smp_task) :
    Tidy cpu (tasks_trace prog cpu L ts) := by
  induction ts with
  | nil => exact Tidy.nil cpu
  | cons t r ih => exact (Tidy.task prog cpu L t).append ih

theorem Tidy.doer (prog : Prog) (cpu q : Nat) (L : List (Bool × Bool)) (ts : List smp_task) :
    Tidy cpu (doer_trace prog cpu q L ts) := by
  have h := Tidy.tasks prog cpu L ts
  refine ⟨ipi_count_doer_trace prog cpu q L ts, fun i => ?_, fun i => ?_⟩
  · rw [pushed_doer_trace, executed_doer_trace, h.pushed_eq, executed_tasks_trace]
  · rw [raised_doer_trace, executed_doer_trace, h.raised_eq, executed_tasks_trace]

theorem drain_drained (prog : Prog) (cpu q : Nat) (fuel : Nat) :
    ∀ (w w1 : World), drain prog cpu q fuel w = some w1 → ∃ ev, Drained cpu q w w1 ev := by
  induction fuel with
  | zero =>
    intro w w1 h
    exact absurd h (by simp [drain])
  | succ n ih =>
    intro w w1 h
    rw [drain] at h
    split at h
    · exact absurd h (by simp)
    · rename_i w2 hd
      have p := doer_pass prog cpu q w true w2 hd
      obtain ⟨ev2, d2⟩ := ih w2 w1 h
      refine ⟨doer_trace prog cpu q (lock_state w) (tasks_of w q) ++ ev2, ?_, ?_,
        (Tidy.doer prog cpu q _ _).append d2.tidy, fun i => ?_⟩
      · rw [d2.trace_eq, p.trace_eq, List.append_assoc]
      · rw [d2.main_eq, p.main_eq]
      · rw [d2.sys_eq, p.sys_eq, Option.map_map]
        congr 1
        funext s
        by_cases hi : i = q <;>
          simp [hi, grow, pushed_append, submitted_append, raised_append, pushed_doer_trace,
            submitted_doer_trace, raised_doer_trace, Bool.or_assoc]
    · rename_i w2 hd
      have p := doer_pass prog cpu q w false w2 hd
      injection h with h
      subst h
      have hnil : tasks_of w q = [] := by
        have := p.ret_eq
        simpa using this.symm
      refine ⟨doer_trace prog cpu q (lock_state w) (tasks_of w q), p.trace_eq, p.main_eq,
        Tidy.doer prog cpu q _ _, fun i => ?_⟩
      rw [p.sys_eq]
      congr 1
      funext s
      have h0 : ∀ j, submitted j (tasks_trace prog cpu (lock_state w) []) = [] := fun _ => rfl
      by_cases hi : i = q <;>
        simp [hi, hnil, grow, pushed_doer_trace, submitted_doer_trace, raised_doer_trace, h0]

theorem Drained.locks_same {cpu q : Nat} {w w1 : World} {ev : List Entry}
    (h : Drained cpu q w w1 ev) : lock_state w1 = lock_state w :=
  lock_state_congr
    (fun i s => { grow i ev s with tasks := if i = q then [] else s.tasks ++ submitted i ev })
    (fun _ _ => ⟨rfl, rfl⟩) h.sys_eq

theorem Drained.tasks_self {cpu q : Nat} {w w1 : World} {ev : List Entry}
    (h : Drained cpu q w w1 ev) : tasks_of w1 q = [] := by
  unfold tasks_of
  rw [h.sys_eq]
  cases w.smp_system[q]? <;> simp

theorem not_isEmpty_append {α : Type} (a b : List α) :
    (!(a ++ b).isEmpty) = (!a.isEmpty || !b.isEmpty) := by
  cases a <;> cases b <;> rfl

@[simp]
theorem lock_state_bitmap_atomic_set (c : Nat) (w : World) :
    lock_state (bitmap_atomic_set c w) = lock_state w := rfl

@[simp]
theorem bitmap_atomic_set_trace (c : Nat) (w : World) :
    (bitmap_atomic_set c w).trace = w.trace ++ [⟨.bitmap_set c, lock_state w⟩] := rfl

@[simp]
theorem bitmap_atomic_set_system (c : Nat) (w : World) :
    (bitmap_atomic_set c w).smp_system = w.smp_system := rfl

@[simp]
theorem bitmap_atomic_set_main (c : Nat) (w : World) :
    (bitmap_atomic_set c w).smp_main
      = { w.smp_main with bitmap := w.smp_main.bitmap ||| (1 <<< c) } := rfl

@[simp]
theorem send_bsp_intr_trace (w : World) :
    (send_bsp_intr w).trace = w.trace ++ [⟨.send_bsp_intr, lock_state w⟩] := rfl

@[simp]
theorem send_bsp_intr_system (w : World) :
    (send_bsp_intr w).smp_system = w.smp_system := rfl

@[simp]
theorem send_bsp_intr_main (w : World) : (send_bsp_intr w).smp_main = w.smp_main := rfl

theorem handler_handled (prog : Prog) (cpu fuel : Nat) (w w1 : World)
    (h : revenant_task_handler prog cpu fuel w = some w1) :
    ∃ wa ev1 ev2, Handled prog cpu fuel w w1 wa ev1 ev2 := by
  unfold revenant_task_handler at h
  cases hs0 : w.smp_system[cpu]? with
  | none =>
    simp only [hs0] at h
    exact absurd h (by simp)
  | some s0 =>
    simp only [hs0, Option.bind_eq_some] at h
    obtain ⟨wa, ha, wb, hb, h⟩ := h
    obtain ⟨ev1, d1⟩ := drain_drained prog cpu cpu fuel _ _ ha
    obtain ⟨ev2, d2⟩ := drain_drained prog cpu 0 fuel _ _ hb
    have hl : lock_state wb = lock_state w := by
      rw [d2.locks_same, d1.locks_same, lock_state_set_work_done]
    have hsys : ∀ i, wb.smp_system[i]? = (w.smp_system[i]?).map fun (s : smp_system_stuff) =>
        { s with
          tasks :=
            if i = 0 then [] else if i = cpu then submitted i ev2
            else s.tasks ++ submitted i (ev1 ++ ev2)
          completed := s.completed ++ (if i = cpu then callbacks (executed (ev1 ++ ev2)) else [])
          work_done :=
            if i = cpu then !(callbacks (executed (ev1 ++ ev2))).isEmpty else s.work_done } := by
      intro i
      rw [d2.sys_eq, d1.sys_eq]
      simp only [set_work_done, modify_system_getElem?, emit_system, Option.map_map]
      congr 1
      funext s
      by_cases hi : i = cpu
      · subst hi
        by_cases h0 : i = 0 <;>
          simp [h0, grow, d1.tidy.pushed_eq, d2.tidy.pushed_eq, d1.tidy.raised_eq,
            d2.tidy.raised_eq, executed_append, callbacks_append, submitted_append,
            not_isEmpty_append]
      · have hi2 : ¬ cpu = i := fun e => hi e.symm
        by_cases h0 : i = 0
        · subst h0
          simp [hi, hi2, grow, d1.tidy.pushed_eq, d2.tidy.pushed_eq, d1.tidy.raised_eq,
            d2.tidy.raised_eq, executed_append, callbacks_append, submitted_append]
        · simp [hi, hi2, h0, grow, d1.tidy.pushed_eq, d2.tidy.pushed_eq, d1.tidy.raised_eq,
            d2.tidy.raised_eq, executed_append, callbacks_append, submitted_append]
    have hwd : work_done_of wb cpu = !(callbacks (executed (ev1 ++ ev2))).isEmpty := by
      unfold work_done_of
      rw [hsys, hs0]
      simp
    have htr : wb.trace = w.trace ++ ⟨.work_done_set cpu false, lock_state w⟩ :: (ev1 ++ ev2) := by
      rw [d2.trace_eq, d1.trace_eq]
      simp [set_work_done]
    have hfirst : wa.trace = w.trace ++ ⟨.work_done_set cpu false, lock_state w⟩ :: ev1 := by
      rw [d1.trace_eq]
      simp [set_work_done]
    have hrange : cpu < w.smp_system.length := by
      by_contra hlt
      rw [List.getElem?_eq_none (Nat.le_of_not_lt hlt)] at hs0
      cases hs0
    rw [hwd] at h
    cases hc : (callbacks (executed (ev1 ++ ev2))).isEmpty with
    | true =>
      have hc2 : callbacks (executed (ev1 ++ ev2)) = [] := List.isEmpty_iff.mp hc
      simp only [hc, Bool.not_true, Bool.false_eq_true, if_false, Option.some.injEq] at h
      subst h
      refine ⟨wa, ev1, ev2, hrange, ha, hfirst, d1.tasks_self, ⟨wb, hb, d2.trace_eq⟩, d1.tidy, d2.tidy, ?_, ?_, ?_⟩
      · rw [htr]
        simp [notify_trace, hc2]
      · rw [d2.main_eq, d1.main_eq]
        simp [set_work_done, hc2]
      · simpa [hc] using hsys
    | false =>
      have hc2 : ¬ callbacks (executed (ev1 ++ ev2)) = [] := fun e => by simp [e] at hc
      simp only [hc, Bool.not_false, if_true, Option.some.injEq] at h
      subst h
      refine ⟨wa, ev1, ev2, hrange, ha, hfirst, d1.tasks_self, ⟨wb, hb, d2.trace_eq⟩, d1.tidy, d2.tidy, ?_, ?_, ?_⟩
      · simp [htr, notify_trace, hc2, hl]
      · simp [d2.main_eq, d1.main_eq, set_work_done, hc2]
      · simpa [hc] using hsys

theorem since_eq {w w1 : World} {ev : List Entry} (h : w1.trace = w.trace ++ ev) :
    since w w1 = ev := by
  simp [since, h]

theorem tlock_free_eq (w : World) (q : Nat) :
    tlock_free w q = (match (lock_state w)[q]? with | some p => !p.1 | none => false) := by
  rw [lock_state_getElem?, tlock_free]
  cases w.smp_system[q]? <;> rfl

theorem flock_free_eq (w : World) (c : Nat) :
    flock_free w c = (match (lock_state w)[c]? with | some p => !p.2 | none => false) := by
  rw [lock_state_getElem?, flock_free]
  cases w.smp_system[c]? <;> rfl

theorem tlock_free_congr {w w1 : World} (h : lock_state w1 = lock_state w) (q : Nat) :
    tlock_free w1 q = tlock_free w q := by
  rw [tlock_free_eq, tlock_free_eq, h]

theorem flock_free_congr {w w1 : World} (h : lock_state w1 = lock_state w) (c : Nat) :
    flock_free w1 c = flock_free w c := by
  rw [flock_free_eq, flock_free_eq, h]

theorem Pass.locks_back {prog : Prog} {cpu q : Nat} {w w1 : World} {b : Bool}
    (h : Pass prog cpu q w b w1) : lock_state w1 = lock_state w := by
  refine lock_state_congr (fun i s => grow i (tasks_trace prog cpu (lock_state w) (tasks_of w q))
      (if i = q then { s with tasks := [] } else s)) ?_ h.sys_eq
  intro i s
  by_cases hi : i = q <;> simp [hi, grow]

theorem Pass.pending_eq {prog : Prog} {cpu q : Nat} {w w1 : World} {b : Bool}
    (h : Pass prog cpu q w b w1) (i : Nat) (hi : i < w.smp_system.length) :
    tasks_of w1 i = (if i = q then [] else tasks_of w i)
      ++ submitted i (tasks_trace prog cpu (lock_state w) (tasks_of w q)) := by
  have h1 : tasks_of w i = (w.smp_system[i]).tasks := by
    simp [tasks_of, List.getElem?_eq_getElem hi]
  have h2 : tasks_of w1 i = (match w1.smp_system[i]? with
      | some s => s.tasks
      | none => []) := rfl
  rw [h1, h2, h.sys_eq, List.getElem?_eq_getElem hi]
  by_cases hq : i = q <;> simp [hq, grow]

theorem submitted_tasks_trace_no_spawn (prog : Prog) (cpu i : Nat) (L : List (Bool × Bool))
    (ts : List smp_task) (h : no_spawn prog ts) :
    submitted i (tasks_trace prog cpu L ts) = [] := by
  induction ts with
  | nil => rfl
  | cons t r ih =>
    have ht : prog t.func = [] := h t (List.mem_cons_self t r)
    have hr : no_spawn prog r := fun x hx => h x (List.mem_cons_of_mem t hx)
    rw [tasks_trace, submitted_append, ih hr, task_trace, ht]
    cases hd : t.done <;> simp [add_trace, done_trace, submitted]

theorem run_task_some (prog : Prog) (cpu : Nat) (t : smp_task) (w : World)
    (ht : prog t.func = []) (hf : flock_free w cpu = true) :
    ∃ w1, run_task prog cpu t w = some w1 := by
  unfold flock_free at hf
  cases hs : w.smp_system[cpu]? with
  | none => simp [hs] at hf
  | some s =>
    simp only [hs, Bool.not_eq_eq_eq_not, Bool.not_true] at hf
    cases hd : t.done with
    | none => simp [run_task, task_func, ht, add_tasks, hd]
    | some d => simp [run_task, task_func, ht, add_tasks, hd, flock_lock, hs, hf]

theorem for_tasks_some (prog : Prog) (cpu : Nat) (ts : List smp_task) :
    ∀ (w : World), no_spawn prog ts → flock_free w cpu = true →
      ∃ w1, for_tasks prog cpu ts w = some w1 := by
  induction ts with
  | nil =>
    intro w _ _
    exact ⟨w, rfl⟩
  | cons t r ih =>
    intro w h hf
    have ht : prog t.func = [] := h t (List.mem_cons_self t r)
    have hr : no_spawn prog r := fun x hx => h x (List.mem_cons_of_mem t hx)
    obtain ⟨w2, h2⟩ := run_task_some prog cpu t w ht hf
    have hl := (run_task_run prog cpu t w w2 h2).locks_kept
    obtain ⟨w1, h1⟩ := ih w2 hr (by rw [flock_free_congr hl]; exact hf)
    exact ⟨w1, by simp [for_tasks, h2, h1]⟩

theorem swap_lock_state (q : Nat) (b : Bool) (w : World) (s : smp_system_stuff)
    (hs : w.smp_system[q]? = some s) (hf : s.tlock = false) :
    lock_state (tlock_unlock q (tasks_swap q (emit (.tasks_empty q b)
      (modify_system q (fun s => { s with tlock := true }) (emit (.tlock_lock q) w)))))
      = lock_state w := by
  refine lock_state_congr (fun i s => if i = q then { s with tasks := [] } else s) ?_ ?_
  · intro i s1
    by_cases hi : i = q <;> simp [hi]
  · intro i
    by_cases hi : i = q
    · subst hi
      simp [tlock_unlock, tasks_swap, hs, hf]
    · have hi2 : ¬ q = i := fun e => hi e.symm
      simp only [tlock_unlock, tasks_swap, modify_system_getElem?, emit_system, Option.map_map]
      congr 1
      funext s1
      simp [hi, hi2]

theorem doer_some (prog : Prog) (cpu q : Nat) (w : World)
    (ht : tlock_free w q = true) (hf : flock_free w cpu = true)
    (hn : no_spawn prog (tasks_of w q)) :
    ∃ w1, revenant_task_doer prog cpu q w = some (!(tasks_of w q).isEmpty, w1) := by
  unfold tlock_free at ht
  cases hs : w.smp_system[q]? with
  | none => simp [hs] at ht
  | some s =>
    simp only [hs, Bool.not_eq_eq_eq_not, Bool.not_true] at ht
    have ht1 : ∀ b, tasks_of (emit (.tasks_empty q b)
        (modify_system q (fun s => { s with tlock := true }) (emit (.tlock_lock q) w))) q
        = tasks_of w q := by
      intro b
      simp [tasks_of, hs]
    have ht2 : tasks_of (modify_system q
        (fun s => { s with tlock := true }) (emit (.tlock_lock q) w)) q = tasks_of w q := by
      simp [tasks_of, hs]
    simp only [revenant_task_doer, tlock_lock, hs, ht, Bool.false_eq_true, if_false,
      Option.some_bind, ht1, ht2]
    cases he : (tasks_of w q).isEmpty with
    | true => simp
    | false =>
      have hl := swap_lock_state q false w s hs ht
      obtain ⟨w1, h1⟩ := for_tasks_some prog cpu (tasks_of w q) _ hn
        (by rw [flock_free_congr hl]; exact hf)
      exact ⟨w1, by simp [h1]⟩

theorem drain_some (prog : Prog) (cpu q : Nat) (n : Nat) (w : World)
    (hq : q < w.smp_system.length)
    (ht : tlock_free w q = true) (hf : flock_free w cpu = true)
    (hn : no_spawn prog (tasks_of w q)) :
    ∃ w1, drain prog cpu q (n + 2) w = some w1 ∧
      w1.trace = w.trace ++ drain_trace prog cpu q (lock_state w) (tasks_of w q) := by
  obtain ⟨w2, h2⟩ := doer_some prog cpu q w ht hf hn
  have p2 := doer_pass prog cpu q w _ w2 h2
  cases he : (tasks_of w q).isEmpty with
  | true =>
    rw [he] at h2
    refine ⟨w2, by simp [drain, h2], ?_⟩
    have hnil : tasks_of w q = [] := List.isEmpty_iff.mp he
    rw [p2.trace_eq, hnil]
    simp [drain_trace]
  | false =>
    rw [he] at h2
    have hl := p2.locks_back
    have hts : tasks_of w2 q = [] := by
      rw [p2.pending_eq q hq, submitted_tasks_trace_no_spawn prog cpu q _ _ hn]
      simp
    obtain ⟨w3, h3⟩ := doer_some prog cpu q w2 (by rw [tlock_free_congr hl]; exact ht)
      (by rw [flock_free_congr hl]; exact hf) (by rw [hts]; intro t h; cases h)
    have p3 := doer_pass prog cpu q w2 _ w3 h3
    rw [hts] at h3
    refine ⟨w3, by simp [drain, h2, h3], ?_⟩
    rw [p3.trace_eq, p2.trace_eq, hl, hts]
    simp [drain_trace, he]

theorem executed_drain_trace (prog : Prog) (cpu q : Nat) (L : List (Bool × Bool))
    (ts : List smp_task) : executed (drain_trace prog cpu q L ts) = ts := by
  cases ts with
  | nil => simp [drain_trace, executed_doer_trace]
  | cons t r => simp [drain_trace, executed_append, executed_doer_trace]

theorem submitted_drain_trace (prog : Prog) (cpu q i : Nat) (L : List (Bool × Bool))
    (ts : List smp_task) (h : no_spawn prog ts) :
    submitted i (drain_trace prog cpu q L ts) = [] := by
  have h0 : submitted i (tasks_trace prog cpu L []) = [] := rfl
  cases ts with
  | nil => simp [drain_trace, submitted_doer_trace, h0]
  | cons t r =>
    simp [drain_trace, submitted_append, submitted_doer_trace, h0,
      submitted_tasks_trace_no_spawn prog cpu i L (t :: r) h]

theorem tasks_of_set_work_done (c : Nat) (b : Bool) (w : World) (i : Nat) :
    tasks_of (set_work_done c b w) i = tasks_of w i := by
  unfold tasks_of
  simp only [set_work_done, modify_system_getElem?, emit_system]
  cases w.smp_system[i]? with
  | none => rfl
  | some s => by_cases h : c = i <;> simp [h]

theorem length_set_work_done (c : Nat) (b : Bool) (w : World) :
    (set_work_done c b w).smp_system.length = w.smp_system.length := by
  simp [set_work_done, modify_system]

theorem Drained.tasks_other {cpu q : Nat} {w w1 : World} {ev : List Entry}
    (h : Drained cpu q w w1 ev) (i : Nat) (hi : i ≠ q) :
    tasks_of w1 i = tasks_of w i ++ (if i < w.smp_system.length then submitted i ev else []) := by
  have h2 : tasks_of w1 i = (match w1.smp_system[i]? with
      | some s => s.tasks
      | none => []) := rfl
  rw [h2, h.sys_eq]
  by_cases hl : i < w.smp_system.length
  · have h1 : tasks_of w i = (w.smp_system[i]).tasks := by
      simp [tasks_of, List.getElem?_eq_getElem hl]
    rw [h1, List.getElem?_eq_getElem hl]
    simp [hi, hl]
  · have h1 : w.smp_system[i]? = none := List.getElem?_eq_none (Nat.le_of_not_lt hl)
    simp [tasks_of, h1, hl]

theorem handler_some (prog : Prog) (cpu n : Nat) (w : World)
    (hc : cpu < w.smp_system.length)
    (ht : tlock_free w cpu = true) (ht0 : tlock_free w 0 = true) (hf : flock_free w cpu = true)
    (hn : no_spawn prog (tasks_of w cpu)) (hn0 : no_spawn prog (tasks_of w 0)) :
    ∃ w1 wa, revenant_task_handler prog cpu (n + 2) w = some w1 ∧
      Handled prog cpu (n + 2) w w1 wa
        (drain_trace prog cpu cpu (lock_state w) (tasks_of w cpu))
        (drain_trace prog cpu 0 (lock_state w) (if cpu = 0 then [] else tasks_of w 0)) := by
  have hl0 : lock_state (set_work_done cpu false w) = lock_state w :=
    lock_state_set_work_done cpu false w
  obtain ⟨wa, ha, hta⟩ := drain_some prog cpu cpu n (set_work_done cpu false w)
    (by rw [length_set_work_done]; exact hc)
    (by rw [tlock_free_congr hl0]; exact ht) (by rw [flock_free_congr hl0]; exact hf)
    (by rw [tasks_of_set_work_done]; exact hn)
  rw [hl0, tasks_of_set_work_done] at hta
  obtain ⟨ev1, d1⟩ := drain_drained prog cpu cpu (n + 2) _ _ ha
  have he1 : ev1 = drain_trace prog cpu cpu (lock_state w) (tasks_of w cpu) :=
    List.append_cancel_left (d1.trace_eq.symm.trans hta)
  have hla : lock_state wa = lock_state w := d1.locks_same.trans hl0
  have hlen : wa.smp_system.length = w.smp_system.length := by
    have := congrArg List.length hla
    simpa [lock_state] using this
  have hta0 : tasks_of wa 0 = if cpu = 0 then [] else tasks_of w 0 := by
    by_cases h0 : cpu = 0
    · rw [if_pos h0]
      have := d1.tasks_self
      rwa [h0] at this
    · rw [if_neg h0, d1.tasks_other 0 (fun e => h0 e.symm), tasks_of_set_work_done, he1,
        submitted_drain_trace prog cpu cpu 0 _ _ hn]
      simp
  obtain ⟨wb, hb, htb⟩ := drain_some prog cpu 0 n wa
    (by rw [hlen]; exact Nat.lt_of_le_of_lt (Nat.zero_le _) hc)
    (by rw [tlock_free_congr hla]; exact ht0) (by rw [flock_free_congr hla]; exact hf)
    (by
      rw [hta0]
      by_cases h0 : cpu = 0
      · rw [if_pos h0]; intro t h; cases h
      · rw [if_neg h0]; exact hn0)
  rw [hla, hta0] at htb
  have hsome : ∃ w1, revenant_task_handler prog cpu (n + 2) w = some w1 := by
    unfold revenant_task_handler
    rw [List.getElem?_eq_getElem hc]
    simp only [ha, hb, Option.some_bind]
    split
    · exact ⟨_, rfl⟩
    · exact ⟨_, rfl⟩
  obtain ⟨w1, h1⟩ := hsome
  obtain ⟨wa2, e1, e2, hh⟩ := handler_handled prog cpu (n + 2) w w1 h1
  have hwa : wa2 = wa := Option.some.inj (hh.first.symm.trans ha)
  subst hwa
  obtain ⟨wb2, hb2, htb2⟩ := hh.second
  have hwb : wb2 = wb := Option.some.inj (hb2.symm.trans hb)
  subst hwb
  have hta2 : wa2.trace = w.trace ++ ⟨.work_done_set cpu false, lock_state w⟩ :: ev1 := by
    rw [d1.trace_eq]
    simp [set_work_done]
  have hE1 : e1 = ev1 := by
    have := List.append_cancel_left (hh.first_trace.symm.trans hta2)
    simpa using this
  have hE2 : e2 = drain_trace prog cpu 0 (lock_state w) (if cpu = 0 then [] else tasks_of w 0) :=
    List.append_cancel_left (htb2.symm.trans htb)
  refine ⟨w1, wa2, h1, ?_⟩
  rw [← he1, ← hE1, ← hE2]
  exact hh

theorem tlock_held_with_flock (q c : Nat) (ev : Event) (L : List (Bool × Bool)) :
    tlock_held q ⟨ev, with_flock c L⟩ = tlock_held q ⟨ev, L⟩ := by
  simp only [tlock_held, with_flock, List.getElem?_modify]
  cases L[q]? with
  | none => rfl
  | some p => by_cases h : c = q <;> simp [h]

theorem flock_held_with_tlock (q c : Nat) (ev : Event) (L : List (Bool × Bool)) :
    flock_held c ⟨ev, with_tlock q L⟩ = flock_held c ⟨ev, L⟩ := by
  simp only [flock_held, with_tlock, List.getElem?_modify]
  cases L[c]? with
  | none => rfl
  | some p => by_cases h : q = c <;> simp [h]

theorem tlock_held_with_tlock (q : Nat) (ev : Event) (L : List (Bool × Bool))
    (hq : q < L.length) : tlock_held q ⟨ev, with_tlock q L⟩ = true := by
  simp [tlock_held, with_tlock, List.getElem?_modify, List.getElem?_eq_getElem hq]

theorem flock_held_with_flock (c : Nat) (ev : Event) (L : List (Bool × Bool))
    (hc : c < L.length) : flock_held c ⟨ev, with_flock c L⟩ = true := by
  simp [flock_held, with_flock, List.getElem?_modify, List.getElem?_eq_getElem hc]

theorem disciplined_free (cpu q : Nat) (ev ev0 : Event) (L : List (Bool × Bool))
    (hT : tlock_held q ⟨ev0, L⟩ = false) (hF : flock_held cpu ⟨ev0, L⟩ = false)
    (h1 : ev.under_tlock q = false) (h2 : ev.under_flock cpu = false) :
    disciplined cpu q ⟨ev, L⟩ := by
  have hT2 : tlock_held q ⟨ev, L⟩ = false := hT
  have hF2 : flock_held cpu ⟨ev, L⟩ = false := hF
  refine ⟨?_, ?_, fun _ => ⟨hT2, hF2⟩⟩
  · rw [hT2]; simp only [h1]
  · rw [hF2]; simp only [h2]

theorem disciplined_tlock (cpu q : Nat) (ev ev0 : Event) (L : List (Bool × Bool))
    (hq : q < L.length) (hF : flock_held cpu ⟨ev0, L⟩ = false)
    (h1 : ev.under_tlock q = true) (h2 : ev.under_flock cpu = false)
    (h3 : ev.is_func = false) : disciplined cpu q ⟨ev, with_tlock q L⟩ := by
  have hF2 : flock_held cpu ⟨ev, with_tlock q L⟩ = false := by
    rw [flock_held_with_tlock]; exact hF
  refine ⟨?_, ?_, fun h => ?_⟩
  · rw [tlock_held_with_tlock q ev L hq]; simp only [h1]
  · rw [hF2]; simp only [h2]
  · rw [h3] at h; cases h

theorem disciplined_flock (cpu q : Nat) (ev ev0 : Event) (L : List (Bool × Bool))
    (hc : cpu < L.length) (hT : tlock_held q ⟨ev0, L⟩ = false)
    (h1 : ev.under_flock cpu = true) (h2 : ev.under_tlock q = false)
    (h3 : ev.is_func = false) : disciplined cpu q ⟨ev, with_flock cpu L⟩ := by
  have hT2 : tlock_held q ⟨ev, with_flock cpu L⟩ = false := by
    rw [tlock_held_with_flock]; exact hT
  refine ⟨?_, ?_, fun h => ?_⟩
  · rw [hT2]; simp only [h2]
  · rw [flock_held_with_flock cpu ev L hc]; simp only [h1]
  · rw [h3] at h; cases h

theorem disciplined_task_trace (prog : Prog) (cpu q : Nat) (L : List (Bool × Bool))
    (hc : cpu < L.length)
    (hT : tlock_held q ⟨.send_bsp_intr, L⟩ = false)
    (hF : flock_held cpu ⟨.send_bsp_intr, L⟩ = false) (t : smp_task) :
    ∀ e ∈ task_trace prog cpu L t, disciplined cpu q e := by
  intro e he
  simp only [task_trace, List.cons_append, List.mem_cons, List.mem_append] at he
  rcases he with he | he | he
  · subst he
    exact disciplined_free cpu q _ _ L hT hF rfl rfl
  · simp only [add_trace, List.mem_map] at he
    obtain ⟨qt, _, rfl⟩ := he
    exact disciplined_free cpu q _ _ L hT hF rfl rfl
  · cases hd : t.done with
    | none => simp [hd, done_trace] at he
    | some d =>
      simp only [hd, done_trace, List.mem_cons, List.mem_singleton, List.not_mem_nil,
        or_false] at he
      rcases he with he | he | he | he
      · subst he; exact disciplined_free cpu q _ _ L hT hF rfl rfl
      · subst he
        exact disciplined_flock cpu q _ _ L hc hT (by simp [Event.under_flock]) rfl rfl
      · subst he
        exact disciplined_flock cpu q _ _ L hc hT (by simp [Event.under_flock]) rfl rfl
      · subst he; exact disciplined_free cpu q _ _ L hT hF rfl rfl

theorem disciplined_tasks_trace (prog : Prog) (cpu q : Nat) (L : List (Bool × Bool))
    (hc : cpu < L.length)
    (hT : tlock_held q ⟨.send_bsp_intr, L⟩ = false)
    (hF : flock_held cpu ⟨.send_bsp_intr, L⟩ = false) (ts : List smp_task) :
    ∀ e ∈ tasks_trace prog cpu L ts, disciplined cpu q e := by
  induction ts with
  | nil =>
    intro e he
    cases he
  | cons t r ih =>
    intro e he
    simp only [tasks_trace, List.mem_append] at he
    rcases he with he | he
    · exact disciplined_task_trace prog cpu q L hc hT hF t e he
    · exact ih e he

theorem disciplined_doer_trace (prog : Prog) (cpu q : Nat) (L : List (Bool × Bool))
    (hq : q < L.length) (hc : cpu < L.length)
    (hT : tlock_held q ⟨.send_bsp_intr, L⟩ = false)
    (hF : flock_held cpu ⟨.send_bsp_intr, L⟩ = false) (ts : List smp_task) :
    ∀ e ∈ doer_trace prog cpu q L ts, disciplined cpu q e := by
  intro e he
  simp only [doer_trace, List.mem_cons] at he
  rcases he with he | he | he
  · subst he; exact disciplined_free cpu q _ _ L hT hF rfl rfl
  · subst he
    exact disciplined_tlock cpu q _ _ L hq hF (by simp [Event.under_tlock]) rfl rfl
  · split at he
    · simp only [List.mem_singleton] at he
      subst he
      exact disciplined_tlock cpu q _ _ L hq hF (by simp [Event.under_tlock]) rfl rfl
    · simp only [List.mem_cons] at he
      rcases he with he | he | he
      · subst he
        exact disciplined_tlock cpu q _ _ L hq hF (by simp [Event.under_tlock]) rfl rfl
      · subst he
        exact disciplined_tlock cpu q _ _ L hq hF (by simp [Event.under_tlock]) rfl rfl
      · exact disciplined_tasks_trace prog cpu q L hc hT hF ts e he

theorem length_of_tlock_free (w : World) (q : Nat) (h : tlock_free w q = true) :
    q < (lock_state w).length := by
  by_contra hlt
  have hn : w.smp_system[q]? = none :=
    List.getElem?_eq_none (by simpa [lock_state] using Nat.le_of_not_lt hlt)
  simp [tlock_free, hn] at h

theorem length_of_flock_free (w : World) (c : Nat) (h : flock_free w c = true) :
    c < (lock_state w).length := by
  by_contra hlt
  have hn : w.smp_system[c]? = none :=
    List.getElem?_eq_none (by simpa [lock_state] using Nat.le_of_not_lt hlt)
  simp [flock_free, hn] at h

theorem tlock_held_of_free (w : World) (q : Nat) (ev : Event) (h : tlock_free w q = true) :
    tlock_held q ⟨ev, lock_state w⟩ = false := by
  rw [tlock_free_eq] at h
  unfold tlock_held
  cases hl : (lock_state w)[q]? with
  | none => rfl
  | some p =>
    rw [hl] at h
    simpa using h

theorem flock_held_of_free (w : World) (c : Nat) (ev : Event) (h : flock_free w c = true) :
    flock_held c ⟨ev, lock_state w⟩ = false := by
  rw [flock_free_eq] at h
  unfold flock_held
  cases hl : (lock_state w)[c]? with
  | none => rfl
  | some p =>
    rw [hl] at h
    simpa using h

theorem Handled.entries_eq {prog : Prog} {cpu fuel : Nat} {w w1 wa : World} {ev1 ev2 : List Entry}
    (h : Handled prog cpu fuel w w1 wa ev1 ev2) :
    since w w1 = ⟨.work_done_set cpu false, lock_state w⟩ :: (ev1 ++ ev2)
      ++ notify_trace cpu (lock_state w) (callbacks (executed (ev1 ++ ev2))) :=
  since_eq h.trace_eq

theorem executed_notify_trace (cpu : Nat) (L : List (Bool × Bool)) (cbs : List Nat) :
    executed (notify_trace cpu L cbs) = [] := by
  cases cbs <;> simp [notify_trace, executed]

theorem submitted_notify_trace (i cpu : Nat) (L : List (Bool × Bool)) (cbs : List Nat) :
    submitted i (notify_trace cpu L cbs) = [] := by
  cases cbs <;> simp [notify_trace, submitted]

theorem Handled.executed_eq {prog : Prog} {cpu fuel : Nat} {w w1 wa : World}
    {ev1 ev2 : List Entry} (h : Handled prog cpu fuel w w1 wa ev1 ev2) :
    executed (since w w1) = executed (ev1 ++ ev2) := by
  rw [h.entries_eq, ← List.singleton_append, List.append_assoc, executed_append, executed_append,
    executed_notify_trace]
  simp [executed]

theorem Handled.ipi_eq {prog : Prog} {cpu fuel : Nat} {w w1 wa : World}
    {ev1 ev2 : List Entry} (h : Handled prog cpu fuel w w1 wa ev1 ev2) :
    ipi_count (since w w1) = if callbacks (executed (since w w1)) = [] then 0 else 1 := by
  rw [h.executed_eq, h.entries_eq, ← List.singleton_append, List.append_assoc, ipi_count_append,
    ipi_count_append, ipi_count_append, h.tidy1.ipi_eq, h.tidy2.ipi_eq]
  by_cases hc : callbacks (executed (ev1 ++ ev2)) = [] <;> simp [notify_trace, ipi_count, hc]

theorem Handled.completed_eq {prog : Prog} {cpu fuel : Nat} {w w1 wa : World}
    {ev1 ev2 : List Entry} (h : Handled prog cpu fuel w w1 wa ev1 ev2) (i : Nat) :
    completed_of w1 i = completed_of w i
      ++ (if i = cpu then callbacks (executed (since w w1)) else []) := by
  have h2 : completed_of w1 i = (match w1.smp_system[i]? with
      | some s => s.completed
      | none => []) := rfl
  rw [h2, h.sys_eq, h.executed_eq]
  unfold completed_of
  cases hs : w.smp_system[i]? with
  | none =>
    have hi : ¬ i = cpu := by
      intro e
      rw [e, List.getElem?_eq_getElem h.in_range] at hs
      cases hs
    simp [hi]
  | some s => simp

theorem Handled.queues_eq {prog : Prog} {cpu fuel : Nat} {w w1 wa : World}
    {ev1 ev2 : List Entry} (h : Handled prog cpu fuel w w1 wa ev1 ev2) (i : Nat)
    (hi : i < w.smp_system.length) :
    tasks_of w1 i = if i = 0 then [] else if i = cpu then submitted i ev2
      else tasks_of w i ++ submitted i (ev1 ++ ev2) := by
  have h2 : tasks_of w1 i = (match w1.smp_system[i]? with
      | some s => s.tasks
      | none => []) := rfl
  have h1 : tasks_of w i = (w.smp_system[i]).tasks := by
    simp [tasks_of, List.getElem?_eq_getElem hi]
  rw [h2, h.sys_eq, h1, List.getElem?_eq_getElem hi]
  rfl

theorem Handled.bitmap_eq {prog : Prog} {cpu fuel : Nat} {w w1 wa : World}
    {ev1 ev2 : List Entry} (h : Handled prog cpu fuel w w1 wa ev1 ev2) :
    w1.smp_main.bitmap = if callbacks (executed (since w w1)) = [] then w.smp_main.bitmap
      else w.smp_main.bitmap ||| (1 <<< cpu) := by
  rw [h.main_eq, h.executed_eq]
  by_cases hc : callbacks (executed (ev1 ++ ev2)) = [] <;> simp [hc]

theorem testBit_set_self (b c : Nat) : (b ||| (1 <<< c)).testBit c = true := by
  simp [Nat.testBit_or, Nat.one_shiftLeft, Nat.testBit_two_pow_self]

theorem testBit_set_other (b c j : Nat) (h : j ≠ c) :
    (b ||| (1 <<< c)).testBit j = b.testBit j := by
  have h2 : ¬ c = j := fun e => h e.symm
  simp [Nat.testBit_or, Nat.one_shiftLeft, Nat.testBit_two_pow, h2]

/-- C1: after one invocation of `revenant_task_handler` on core `cpu`, whatever
the flag and the bitmap were before, the bitmap is the old bitmap with bit
`cpu` set if an executed task had a completion callback and is the old bitmap if
none had; the bits of other cores are unchanged.  When nobody else produces, the
invocation returns with any fuel of at least 2. -/
theorem revenant_task_handler_bitmap (prog : Prog) (cpu : Nat) (w : World) :
    (∀ fuel w1, revenant_task_handler prog cpu fuel w = some w1 →
      (w1.smp_main.bitmap =
        if callbacks (executed (since w w1)) = [] then w.smp_main.bitmap
        else w.smp_main.bitmap ||| (1 <<< cpu)) ∧
      (callbacks (executed (since w w1)) ≠ [] → w1.smp_main.bitmap.testBit cpu = true) ∧
      (∀ j, j ≠ cpu → w1.smp_main.bitmap.testBit j = w.smp_main.bitmap.testBit j)) ∧
    (no_producers prog cpu w → ∀ fuel, 2 ≤ fuel →
      ∃ w1, revenant_task_handler prog cpu fuel w = some w1) := by
  constructor
  · intro fuel w1 h
    obtain ⟨wa, ev1, ev2, hh⟩ := handler_handled prog cpu fuel w w1 h
    have hb := hh.bitmap_eq
    refine ⟨hb, fun hne => ?_, fun j hj => ?_⟩
    · rw [hb, if_neg hne]
      exact testBit_set_self _ _
    · rw [hb]
      split
      · rfl
      · exact testBit_set_other _ _ _ hj
  · intro hp fuel hfuel
    obtain ⟨n, rfl⟩ := Nat.exists_eq_add_of_le hfuel
    obtain ⟨hc, ht, ht0, hf, hn, hn0⟩ := hp
    obtain ⟨w1, wa, h1, _⟩ := handler_some prog cpu n w hc ht ht0 hf hn hn0
    exact ⟨w1, by rw [Nat.add_comm]; exact h1⟩

/-- C1 on three queues: core 2 executes tasks with callbacks, bit 2 is added to
bitmap 1 and bit 0 stays. -/
theorem revenant_task_handler_bitmap_witness :
    scenario_result.smp_main.bitmap = 5 ∧
      (∃ w1, revenant_task_handler quiet_prog 2 2 scenario_world = some w1) :=
  ⟨((revenant_task_handler_bitmap quiet_prog 2 scenario_world).1 2 scenario_result
      (by decide)).1.trans (by decide),
   (revenant_task_handler_bitmap quiet_prog 2 scenario_world).2 (by decide) 2 (Nat.le_refl 2)⟩

theorem mem_drain_trace_empty (prog : Prog) (cpu q : Nat) (L : List (Bool × Bool))
    (ts : List smp_task) :
    (⟨.tasks_empty q true, with_tlock q L⟩ : Entry) ∈ drain_trace prog cpu q L ts := by
  cases ts with
  | nil => simp [drain_trace, doer_trace]
  | cons t r => simp [drain_trace, doer_trace]

theorem handler_own_then_global (prog : Prog) (cpu fuel : Nat) (w : World)
    (hc : cpu ≠ 0) (hp : no_producers prog cpu w) (hfuel : 2 ≤ fuel) :
    ∃ w1 ev1 ev2 ev3, revenant_task_handler prog cpu fuel w = some w1 ∧
      since w w1 = ev1 ++ ev2 ++ ev3 ∧
      executed ev1 = tasks_of w cpu ∧
      (∃ e ∈ ev1, e.ev = .tasks_empty cpu true) ∧
      executed ev2 = tasks_of w 0 ∧
      executed ev3 = [] ∧
      executed (since w w1) = tasks_of w cpu ++ tasks_of w 0 := by
  obtain ⟨n, rfl⟩ := Nat.exists_eq_add_of_le hfuel
  obtain ⟨hr, ht, ht0, hf, hn, hn0⟩ := hp
  obtain ⟨w1, wa, h1, hh⟩ := handler_some prog cpu n w hr ht ht0 hf hn hn0
  rw [if_neg hc] at hh
  refine ⟨w1, ⟨.work_done_set cpu false, lock_state w⟩ ::
      drain_trace prog cpu cpu (lock_state w) (tasks_of w cpu),
    drain_trace prog cpu 0 (lock_state w) (tasks_of w 0),
    notify_trace cpu (lock_state w) (callbacks (executed
      (drain_trace prog cpu cpu (lock_state w) (tasks_of w cpu)
        ++ drain_trace prog cpu 0 (lock_state w) (tasks_of w 0)))),
    by rw [Nat.add_comm]; exact h1, ?_, ?_, ?_, ?_, ?_, ?_⟩
  · rw [hh.entries_eq]
    simp
  · rw [← List.singleton_append, executed_append, executed_drain_trace]
    simp [executed]
  · exact ⟨_, List.mem_cons_of_mem _ (mem_drain_trace_empty prog cpu cpu _ _), rfl⟩
  · exact executed_drain_trace prog cpu 0 _ _
  · exact executed_notify_trace _ _ _
  · rw [hh.executed_eq, executed_append, executed_drain_trace, executed_drain_trace]

/-- C2: on a core other than 0, with nobody else producing and no executed task
submitting tasks, one invocation of `revenant_task_handler` returns (with any
fuel of at least 2) and has invoked the work function of every task of the
core's own pending list and then of every task of the pending list of queue 0,
each once, in list order; the operations split into those up to the test that
finds the own list empty, which execute the own tasks, and the later ones,
which execute the tasks of queue 0. -/
theorem revenant_task_handler_runs_own_then_global (prog : Prog) (cpu fuel : Nat) (w : World)
    (hc : cpu ≠ 0) (hp : no_producers prog cpu w) (hfuel : 2 ≤ fuel) :
    ∃ w1 ev1 ev2 ev3, revenant_task_handler prog cpu fuel w = some w1 ∧
      since w w1 = ev1 ++ ev2 ++ ev3 ∧
      executed ev1 = tasks_of w cpu ∧
      (∃ e ∈ ev1, e.ev = .tasks_empty cpu true) ∧
      executed ev2 = tasks_of w 0 ∧
      executed ev3 = [] ∧
      executed (since w w1) = tasks_of w cpu ++ tasks_of w 0 :=
  handler_own_then_global prog cpu fuel w hc hp hfuel

/-- C2 on three queues: core 2 runs its own tasks 1, 2, 3 and then tasks 10, 11
of queue 0. -/
theorem revenant_task_handler_runs_own_then_global_witness :
    ∃ w1 ev1 ev2 ev3, revenant_task_handler quiet_prog 2 2 scenario_world = some w1 ∧
      since scenario_world w1 = ev1 ++ ev2 ++ ev3 ∧
      executed ev1 = tasks_of scenario_world 2 ∧
      (∃ e ∈ ev1, e.ev = .tasks_empty 2 true) ∧
      executed ev2 = tasks_of scenario_world 0 ∧
      executed ev3 = [] ∧
      executed (since scenario_world w1) = tasks_of scenario_world 2 ++ tasks_of scenario_world 0 :=
  revenant_task_handler_runs_own_then_global quiet_prog 2 2 scenario_world (by decide)
    (by decide) (by decide)

/-- C3: after one invocation of `revenant_task_handler` on core `cpu` the
completed list of `cpu` is its old completed list followed by the callbacks of
the executed tasks that had one, in execution order, and the completed list of
every other queue is unchanged; on a core other than 0 with nobody else
producing, the invocation returns and the appended callbacks are those of the
own tasks followed by those of the tasks of queue 0. -/
theorem revenant_task_handler_completed (prog : Prog) (cpu : Nat) (w : World) :
    (∀ fuel w1, revenant_task_handler prog cpu fuel w = some w1 →
      completed_of w1 cpu = completed_of w cpu ++ callbacks (executed (since w w1)) ∧
      (∀ i, i ≠ cpu → completed_of w1 i = completed_of w i)) ∧
    (cpu ≠ 0 → no_producers prog cpu w → ∀ fuel, 2 ≤ fuel →
      ∃ w1, revenant_task_handler prog cpu fuel w = some w1 ∧
        completed_of w1 cpu
          = completed_of w cpu ++ callbacks (tasks_of w cpu ++ tasks_of w 0) ∧
        completed_of w1 0 = completed_of w 0) := by
  constructor
  · intro fuel w1 h
    obtain ⟨wa, ev1, ev2, hh⟩ := handler_handled prog cpu fuel w w1 h
    refine ⟨by simpa using hh.completed_eq cpu, fun i hi => ?_⟩
    simpa [hi] using hh.completed_eq i
  · intro hc hp fuel hfuel
    obtain ⟨w1, ev1, ev2, ev3, h1, _, _, _, _, _, hex⟩ :=
      handler_own_then_global prog cpu fuel w hc hp hfuel
    obtain ⟨wa, e1, e2, hh⟩ := handler_handled prog cpu fuel w w1 h1
    refine ⟨w1, h1, ?_, ?_⟩
    · rw [← hex]
      simpa using hh.completed_eq cpu
    · have h0 : ¬ 0 = cpu := fun e => hc e.symm
      simpa [h0] using hh.completed_eq 0

/-- C3 on three queues: core 2 appends callbacks 21, 22, 23 after the 7 that its
completed list held, and the completed list of queue 0 stays empty. -/
theorem revenant_task_handler_completed_witness :
    completed_of scenario_result 2 = [7, 21, 22, 23] ∧
      (∃ w1, revenant_task_handler quiet_prog 2 2 scenario_world = some w1 ∧
        completed_of w1 2 = completed_of scenario_world 2
          ++ callbacks (tasks_of scenario_world 2 ++ tasks_of scenario_world 0) ∧
        completed_of w1 0 = completed_of scenario_world 0) :=
  ⟨((revenant_task_handler_completed quiet_prog 2 scenario_world).1 2 scenario_result
      (by decide)).1.trans (by decide),
   (revenant_task_handler_completed quiet_prog 2 scenario_world).2 (by decide) (by decide) 2
      (Nat.le_refl 2)⟩

/-- C4: one invocation of `revenant_task_handler` raises the interrupt to the
BSP once if an executed task had a completion callback and not at all
otherwise.  With three tasks with callbacks on the own queue of core 2 and two
callback-less tasks on queue 0, the five work functions run, the three callbacks
are appended to the completed list of core 2, bit 2 is set and one interrupt is
raised; with both queues empty no work function runs, the bitmap is unchanged
and no interrupt is raised. -/
theorem revenant_task_handler_interrupt (prog : Prog) (w : World) :
    (∀ cpu fuel w1, revenant_task_handler prog cpu fuel w = some w1 →
      ipi_count (since w w1) = if callbacks (executed (since w w1)) = [] then 0 else 1) ∧
    (∀ (f1 f2 f3 d1 d2 d3 g1 g2 fuel : Nat),
      tasks_of w 2 = [⟨f1, some d1⟩, ⟨f2, some d2⟩, ⟨f3, some d3⟩] →
      tasks_of w 0 = [⟨g1, none⟩, ⟨g2, none⟩] →
      no_producers prog 2 w → 2 ≤ fuel →
      ∃ w1, revenant_task_handler prog 2 fuel w = some w1 ∧
        (executed (since w w1)).map (fun t => t.func) = [f1, f2, f3, g1, g2] ∧
        completed_of w1 2 = completed_of w 2 ++ [d1, d2, d3] ∧
        w1.smp_main.bitmap.testBit 2 = true ∧
        ipi_count (since w w1) = 1) ∧
    (∀ cpu fuel, tasks_of w cpu = [] → tasks_of w 0 = [] →
      no_producers prog cpu w → 2 ≤ fuel →
      ∃ w1, revenant_task_handler prog cpu fuel w = some w1 ∧
        executed (since w w1) = [] ∧
        w1.smp_main.bitmap = w.smp_main.bitmap ∧
        ipi_count (since w w1) = 0) := by
  refine ⟨fun cpu fuel w1 h => ?_, ?_, ?_⟩
  · obtain ⟨wa, ev1, ev2, hh⟩ := handler_handled prog cpu fuel w w1 h
    exact hh.ipi_eq
  · intro f1 f2 f3 d1 d2 d3 g1 g2 fuel hL hG hp hfuel
    obtain ⟨w1, ev1, ev2, ev3, h1, _, _, _, _, _, hex⟩ :=
      handler_own_then_global prog 2 fuel w (by decide) hp hfuel
    obtain ⟨wa, e1, e2, hh⟩ := handler_handled prog 2 fuel w w1 h1
    rw [hL, hG] at hex
    have hcb : callbacks (executed (since w w1)) = [d1, d2, d3] := by
      rw [hex]
      rfl
    refine ⟨w1, h1, by rw [hex]; rfl, ?_, ?_, ?_⟩
    · have := hh.completed_eq 2
      rw [hcb] at this
      simpa using this
    · rw [hh.bitmap_eq, hcb]
      exact testBit_set_self _ _
    · rw [hh.ipi_eq, hcb]
      rfl
  · intro cpu fuel hL hG hp hfuel
    have hp2 := hp
    obtain ⟨n, rfl⟩ := Nat.exists_eq_add_of_le hfuel
    obtain ⟨hr, ht, ht0, hf, hn, hn0⟩ := hp
    obtain ⟨w1, wa, h1, hh⟩ := handler_some prog cpu n w hr ht ht0 hf hn hn0
    have hex : executed (since w w1) = [] := by
      rw [hh.executed_eq, executed_append, executed_drain_trace, executed_drain_trace, hL, hG]
      simp
    refine ⟨w1, by rw [Nat.add_comm]; exact h1, hex, ?_, ?_⟩
    · rw [hh.bitmap_eq, hex]
      rfl
    · rw [hh.ipi_eq, hex]
      rfl

/-- C4 on three queues: from `scenario_world` core 2 raises one interrupt. -/
theorem revenant_task_handler_interrupt_witness :
    ipi_count (since scenario_world scenario_result) = 1 ∧
      (∃ w1, revenant_task_handler quiet_prog 2 2 scenario_world = some w1 ∧
        (executed (since scenario_world w1)).map (fun t => t.func) = [1, 2, 3, 10, 11] ∧
        completed_of w1 2 = completed_of scenario_world 2 ++ [21, 22, 23] ∧
        w1.smp_main.bitmap.testBit 2 = true ∧
        ipi_count (since scenario_world w1) = 1) :=
  ⟨((revenant_task_handler_interrupt quiet_prog scenario_world).1 2 2 scenario_result
      (by decide)).trans (by decide),
   (revenant_task_handler_interrupt quiet_prog scenario_world).2.1 1 2 3 21 22 23 10 11 2
      (by decide) (by decide) (by decide) (Nat.le_refl 2)⟩

theorem doer_in_range (prog : Prog) (cpu q : Nat) (w : World) (b : Bool) (w1 : World)
    (h : revenant_task_doer prog cpu q w = some (b, w1)) : q < w.smp_system.length := by
  by_contra hlt
  have hn : w.smp_system[q]? = none := List.getElem?_eq_none (Nat.le_of_not_lt hlt)
  simp [revenant_task_doer, tlock_lock, hn] at h

/-- The loop on queue `q` executes, in order, the tasks that were pending on `q`
when it started followed by the tasks submitted to `q` while it ran. -/
theorem drain_fifo (prog : Prog) (cpu q : Nat) (fuel : Nat) :
    ∀ (w w1 : World) (ev : List Entry), drain prog cpu q fuel w = some w1 →
      w1.trace = w.trace ++ ev → executed ev = tasks_of w q ++ submitted q ev := by
  induction fuel with
  | zero =>
    intro w w1 ev h
    exact absurd h (by simp [drain])
  | succ n ih =>
    intro w w1 ev h htr
    rw [drain] at h
    split at h
    · exact absurd h (by simp)
    · rename_i w2 hd
      have p := doer_pass prog cpu q w true w2 hd
      have hq := doer_in_range prog cpu q w true w2 hd
      obtain ⟨ev2, d2⟩ := drain_drained prog cpu q n w2 w1 h
      have hcat : w.trace ++ ev
          = w.trace ++ (doer_trace prog cpu q (lock_state w) (tasks_of w q) ++ ev2) := by
        rw [← htr, d2.trace_eq, p.trace_eq, List.append_assoc]
      have hev := List.append_cancel_left hcat
      have h2 := ih w2 w1 ev2 h d2.trace_eq
      have hts := p.pending_eq q hq
      rw [if_pos rfl, List.nil_append] at hts
      rw [hev, executed_append, submitted_append, executed_doer_trace, submitted_doer_trace, h2,
        hts]
    · rename_i w2 hd
      have p := doer_pass prog cpu q w false w2 hd
      injection h with h
      subst h
      have hnil : tasks_of w q = [] := by
        have := p.ret_eq
        simpa using this.symm
      have hcat : w.trace ++ ev
          = w.trace ++ doer_trace prog cpu q (lock_state w) (tasks_of w q) := by
        rw [← htr, p.trace_eq]
      have hev := List.append_cancel_left hcat
      rw [hev, executed_doer_trace, submitted_doer_trace, hnil]
      rfl

theorem executed_cons_work_done (c : Nat) (b : Bool) (L : List (Bool × Bool))
    (ev : List Entry) : executed (⟨.work_done_set c b, L⟩ :: ev) = executed ev := by
  simp [executed]

theorem submitted_cons_work_done (i c : Nat) (b : Bool) (L : List (Bool × Bool))
    (ev : List Entry) : submitted i (⟨.work_done_set c b, L⟩ :: ev) = submitted i ev := by
  simp [submitted]

/-- C5 as stated fails: on core 1 the handler finds its own queue empty, then
runs the task of queue 0, whose work function submits a task to queue 1; the
handler returns with that task still pending on the own queue of core 1, and it
has executed the task of queue 0 only. -/
theorem revenant_task_handler_own_queue_left_pending :
    revenant_task_handler respawn_prog 1 2 respawn_world = some respawn_result ∧
      tasks_of respawn_result 1 = [⟨1, none⟩] ∧ tasks_of respawn_result 0 = [] ∧
      executed (since respawn_world respawn_result) = [⟨0, none⟩] := by
  decide

/-- C5, amended: when an invocation of `revenant_task_handler` on core `cpu`
returns, with `wa` the state at the end of the loop on the own queue:
the own pending list was empty at `wa`, and up to `wa` the handler executed,
each once and in order, the tasks that were pending on the own queue at the
start and those submitted to it up to `wa`; the pending list of queue 0 is empty
at the return, and after `wa` the handler executed, each once and in order, the
tasks pending on queue 0 at `wa` (those pending at the start and those
submitted up to `wa`) and those submitted to queue 0 after `wa`; nothing else
was executed.  The only submitted tasks not executed are those submitted to the
own queue after `wa`, while queue 0 was drained: they are exactly the own
pending list at the return, which is empty when `cpu` is 0. -/
theorem revenant_task_handler_queues_at_decision (prog : Prog) (cpu fuel : Nat) (w w1 : World)
    (h : revenant_task_handler prog cpu fuel w = some w1) :
    tasks_of w1 0 = [] ∧
      ∃ wa, drain prog cpu cpu fuel (set_work_done cpu false w) = some wa ∧
        tasks_of wa cpu = [] ∧
        (tasks_of w1 cpu = if cpu = 0 then [] else submitted cpu (since wa w1)) ∧
        executed (since w wa) = tasks_of w cpu ++ submitted cpu (since w wa) ∧
        (tasks_of wa 0 = if cpu = 0 then [] else tasks_of w 0 ++ submitted 0 (since w wa)) ∧
        executed (since wa w1) = tasks_of wa 0 ++ submitted 0 (since wa w1) ∧
        executed (since w w1) = executed (since w wa) ++ executed (since wa w1) := by
  obtain ⟨wa, ev1, ev2, hh⟩ := handler_handled prog cpu fuel w w1 h
  have h0 : 0 < w.smp_system.length := Nat.lt_of_le_of_lt (Nat.zero_le _) hh.in_range
  obtain ⟨wb, hb, htb⟩ := hh.second
  have hs : since wa w1
      = ev2 ++ notify_trace cpu (lock_state w) (callbacks (executed (ev1 ++ ev2))) := by
    apply since_eq
    rw [hh.trace_eq, hh.first_trace]
    simp
  have hs1 : since w wa = ⟨.work_done_set cpu false, lock_state w⟩ :: ev1 :=
    since_eq hh.first_trace
  have hta : wa.trace = (set_work_done cpu false w).trace ++ ev1 := by
    rw [hh.first_trace]
    simp [set_work_done]
  have f1 := drain_fifo prog cpu cpu fuel _ _ ev1 hh.first hta
  rw [tasks_of_set_work_done] at f1
  have f2 := drain_fifo prog cpu 0 fuel _ _ ev2 hb htb
  have hwa0 : tasks_of wa 0 = if cpu = 0 then [] else tasks_of w 0 ++ submitted 0 ev1 := by
    by_cases hc : cpu = 0
    · rw [if_pos hc]
      have := hh.first_empty
      rwa [hc] at this
    · rw [if_neg hc]
      obtain ⟨e1, d1⟩ := drain_drained prog cpu cpu fuel _ _ hh.first
      have he : e1 = ev1 := List.append_cancel_left (d1.trace_eq.symm.trans hta)
      subst he
      rw [d1.tasks_other 0 (fun e => hc e.symm), tasks_of_set_work_done, length_set_work_done,
        if_pos h0]
  refine ⟨by simpa using hh.queues_eq 0 h0, wa, hh.first, hh.first_empty, ?_, ?_, ?_, ?_, ?_⟩
  · rw [hh.queues_eq cpu hh.in_range, hs]
    by_cases hc : cpu = 0 <;> simp [hc, submitted_append, submitted_notify_trace]
  · rw [hs1, executed_cons_work_done, submitted_cons_work_done]
    exact f1
  · rw [hs1, submitted_cons_work_done]
    exact hwa0
  · rw [hs, executed_append, submitted_append, executed_notify_trace, submitted_notify_trace,
      List.append_nil, List.append_nil]
    exact f2
  · rw [hh.executed_eq, hs1, hs, executed_cons_work_done, executed_append, executed_append,
      executed_notify_trace, List.append_nil]

/-- C5, amended, on two queues: core 1 executes the task of queue 0, and the
task that this one submitted to queue 1 is the own pending list at the return. -/
theorem revenant_task_handler_queues_at_decision_witness :
    tasks_of respawn_result 0 = [] ∧
      ∃ wa, drain respawn_prog 1 1 2 (set_work_done 1 false respawn_world) = some wa ∧
        tasks_of wa 1 = [] ∧
        (tasks_of respawn_result 1
          = if 1 = 0 then [] else submitted 1 (since wa respawn_result)) ∧
        executed (since respawn_world wa)
          = tasks_of respawn_world 1 ++ submitted 1 (since respawn_world wa) ∧
        (tasks_of wa 0
          = if 1 = 0 then []
            else tasks_of respawn_world 0 ++ submitted 0 (since respawn_world wa)) ∧
        executed (since wa respawn_result)
          = tasks_of wa 0 ++ submitted 0 (since wa respawn_result) ∧
        executed (since respawn_world respawn_result)
          = executed (since respawn_world wa) ++ executed (since wa respawn_result) :=
  revenant_task_handler_queues_at_decision respawn_prog 1 2 respawn_world respawn_result
    (by decide)

/-- C8: in one pass of `revenant_task_doer` on queue `q` run by core `cpu`,
started with the pending-list lock of `q` and the completed-list lock of `cpu`
free, every operation respects the locking discipline (the pending-list lock is
held exactly at the emptiness test, the swap and its release, the
completed-list lock exactly at the append and its release, and no work function
is invoked with either lock held), and on return, whether `false` on an empty
list or `true` after a batch, both locks are free again; the pass returns when
no task of the batch submits tasks. -/
theorem revenant_task_doer_lock_discipline (prog : Prog) (cpu q : Nat) (w : World)
    (ht : tlock_free w q = true) (hf : flock_free w cpu = true) :
    (∀ b w1, revenant_task_doer prog cpu q w = some (b, w1) →
      (∀ e ∈ since w w1, disciplined cpu q e) ∧
      tlock_free w1 q = true ∧ flock_free w1 cpu = true ∧
      b = !(tasks_of w q).isEmpty) ∧
    (no_spawn prog (tasks_of w q) →
      ∃ w1, revenant_task_doer prog cpu q w = some (!(tasks_of w q).isEmpty, w1)) := by
  constructor
  · intro b w1 h
    have p := doer_pass prog cpu q w b w1 h
    have hl := p.locks_back
    refine ⟨?_, by rw [tlock_free_congr hl]; exact ht, by rw [flock_free_congr hl]; exact hf,
      p.ret_eq⟩
    rw [since_eq p.trace_eq]
    exact disciplined_doer_trace prog cpu q _ (length_of_tlock_free w q ht)
      (length_of_flock_free w cpu hf) (tlock_held_of_free w q _ ht)
      (flock_held_of_free w cpu _ hf) _
  · intro hn
    exact doer_some prog cpu q w ht hf hn

/-- C8 on three queues: the pass of core 2 on its own queue returns `true`, all
its operations respect the discipline and both locks are free afterwards. -/
theorem revenant_task_doer_lock_discipline_witness :
    ((∀ e ∈ since scenario_world scenario_pass, disciplined 2 2 e) ∧
      tlock_free scenario_pass 2 = true ∧ flock_free scenario_pass 2 = true ∧
      true = !(tasks_of scenario_world 2).isEmpty) ∧
    ∃ w1, revenant_task_doer quiet_prog 2 2 scenario_world
      = some (!(tasks_of scenario_world 2).isEmpty, w1) :=
  ⟨(revenant_task_doer_lock_discipline quiet_prog 2 2 scenario_world (by decide)
      (by decide)).1 true scenario_pass (by decide),
   (revenant_task_doer_lock_discipline quiet_prog 2 2 scenario_world (by decide)
      (by decide)).2 (by decide)⟩

theorem thread_main_mismatch (cpu hw : Int) (s : Boot) (hne : cpu ≠ hw)
    (hfree : s.global_lock = none) (hrun : s.halted = false) :
    revenant_thread_main cpu hw s
      = (⟨cpu, hw, 4⟩, { s with halted := true, log := s.log ++ check_log s.smp_main cpu hw }) := by
  simp [revenant_thread_main, run_thread, thread_step, global_lock, global_unlock,
    expects_cpu_id, log_ev, AP.next, hfree, hrun, hne, check_log]

theorem thread_main_match (cpu : Int) (s : Boot)
    (hfree : s.global_lock = none) (hrun : s.halted = false) :
    revenant_thread_main cpu cpu s
      = (⟨cpu, cpu, 17⟩,
         { s with
           smp_main := { s.smp_main with
             boot_barrier := s.smp_main.boot_barrier + 1
             initialized_cpus := s.smp_main.initialized_cpus ++ [cpu] }
           log := s.log ++ (check_log s.smp_main cpu cpu ++ ready_log cpu cpu) }) := by
  simp [revenant_thread_main, run_thread, thread_step, global_lock, global_unlock,
    expects_cpu_id, log_ev, AP.next, hfree, hrun, check_log, ready_log, this_stack]

theorem this_stack_congr {m m0 : smp_stuff} (hb : m.stack_base = m0.stack_base)
    (hs : m.stack_size = m0.stack_size) (cpu : Int) : this_stack m cpu = this_stack m0 cpu := by
  simp [this_stack, hb, hs]

/-- A statement either leaves everything as it is (the core spins on the lock
or is in its idle loop) or performs the next operation of the program. -/
theorem thread_step_cases (a : AP) (s : Boot) (hw : a.hw = a.cpu) (hpc : a.pc ≤ 17)
    (hrun : s.halted = false) :
    thread_step a s = (a, s) ∨
      (a.pc < 17 ∧ ∃ e h, (thread_events s.smp_main a.cpu)[a.pc]? = some e ∧
        thread_step a s = (a.next, (thread_step a s).2) ∧
        (thread_step a s).2.log = s.log ++ [⟨a.hw, e, h⟩] ∧
        (thread_step a s).2.halted = false ∧
        (thread_step a s).2.smp_main = effect a.pc a.cpu s.smp_main) := by
  obtain ⟨cpu, hw0, pc⟩ := a
  simp only at hw hpc
  subst hw
  cases hl : s.global_lock with
  | none =>
    by_cases h17 : pc = 17
    · left
      subst h17
      simp [thread_step, hrun]
    · right
      interval_cases pc <;>
        simp_all [thread_step, global_lock, global_unlock, expects_cpu_id, log_ev, AP.next,
          thread_events, effect]
  | some c =>
    by_cases h1 : pc = 1
    · left
      subst h1
      simp [thread_step, global_lock, hrun, hl]
    · by_cases h14 : pc = 14
      · left
        subst h14
        simp [thread_step, global_lock, hrun, hl]
      · by_cases h17 : pc = 17
        · left
          subst h17
          simp [thread_step, hrun]
        · right
          interval_cases pc <;>
            simp_all [thread_step, global_lock, global_unlock, expects_cpu_id, log_ev, AP.next,
              thread_events, effect]

theorem thread_events_congr {m m0 : smp_stuff} (hb : m.stack_base = m0.stack_base)
    (hs : m.stack_size = m0.stack_size) (cpu : Int) :
    thread_events m cpu = thread_events m0 cpu := by
  simp [thread_events, this_stack_congr hb hs]

theorem effect_base (pc : Nat) (cpu : Int) (m : smp_stuff) :
    (effect pc cpu m).stack_base = m.stack_base ∧ (effect pc cpu m).stack_size = m.stack_size := by
  unfold effect
  split
  · exact ⟨rfl, rfl⟩
  · split <;> exact ⟨rfl, rfl⟩

theorem effect_barrier (pc : Nat) (cpu : Int) (m : smp_stuff) :
    (effect pc cpu m).boot_barrier = m.boot_barrier + (if pc = 13 then 1 else 0) := by
  unfold effect
  by_cases h : pc = 13
  · simp [h]
  · by_cases h2 : pc = 15 <;> simp [h, h2]

theorem effect_registered (pc : Nat) (cpu : Int) (m : smp_stuff) :
    (effect pc cpu m).initialized_cpus
      = m.initialized_cpus ++ (if pc = 15 then [cpu] else []) := by
  unfold effect
  by_cases h : pc = 13
  · simp [h]
  · by_cases h2 : pc = 15 <;> simp [h, h2]

theorem events_of_append (c : Int) (a b : List BootEntry) :
    events_of c (a ++ b) = events_of c a ++ events_of c b := by
  simp [events_of, List.filter_append]

theorem Booting.step {ids : List Int} {m0 : smp_stuff} (hnd : ids.Nodup) (l1 l2 : List AP)
    (a : AP) (s : Boot) (h : Booting ids m0 ⟨l1 ++ a :: l2, s⟩) :
    Booting ids m0 ⟨l1 ++ (thread_step a s).1 :: l2, (thread_step a s).2⟩ := by
  have hmem : a ∈ l1 ++ a :: l2 := by simp
  have hhw := h.hws a hmem
  have hpc := h.pcs a hmem
  have hrun : s.halted = false := h.running
  rcases thread_step_cases a s hhw hpc hrun with hst | ⟨hlt, e, hd, he, hst, hlog, hhalt, hmain⟩
  · rw [hst]
    exact h
  · rw [hst]
    have hb : s.smp_main.stack_base = m0.stack_base := h.base_eq
    have hs : s.smp_main.stack_size = m0.stack_size := h.size_eq
    have hcp : (l1.map fun a => a.cpu) ++ a.cpu :: (l2.map fun a => a.cpu) = ids := by
      have := h.cpus
      simpa using this
    have hnd2 : ((l1.map fun a => a.cpu) ++ a.cpu :: (l2.map fun a => a.cpu)).Nodup := by
      rw [hcp]; exact hnd
    refine ⟨?_, ?_, ?_, hhalt, ?_, ?_, ?_, ?_, ?_⟩
    · simpa [AP.next] using hcp
    · intro b hbm
      simp only [List.mem_append, List.mem_cons] at hbm
      rcases hbm with hbm | hbm | hbm
      · exact h.hws b (by simp [hbm])
      · subst hbm; exact hhw
      · exact h.hws b (by simp [hbm])
    · intro b hbm
      simp only [List.mem_append, List.mem_cons] at hbm
      rcases hbm with hbm | hbm | hbm
      · exact h.pcs b (by simp [hbm])
      · subst hbm; simp only [AP.next]; omega
      · exact h.pcs b (by simp [hbm])
    · show (thread_step a s).2.smp_main.stack_base = _
      rw [hmain, (effect_base _ _ _).1]; exact hb
    · show (thread_step a s).2.smp_main.stack_size = _
      rw [hmain, (effect_base _ _ _).2]; exact hs
    · show (thread_step a s).2.smp_main.boot_barrier = _
      rw [hmain, effect_barrier]
      have hbar : s.smp_main.boot_barrier = ((l1 ++ a :: l2).filter fun a => 13 < a.pc).length :=
        h.barrier
      rw [hbar]
      simp only [List.filter_append, List.filter_cons, List.length_append, AP.next]
      by_cases h13 : a.pc = 13
      · simp [h13]
        omega
      · by_cases hgt : 13 < a.pc
        · have : 13 < a.pc + 1 := by omega
          simp [h13, hgt, this]
        · have : ¬ 13 < a.pc + 1 := by omega
          simp [h13, hgt, this]
    · show (thread_step a s).2.smp_main.initialized_cpus.Perm _
      rw [hmain, effect_registered]
      have hreg : s.smp_main.initialized_cpus.Perm
          (((l1 ++ a :: l2).filter fun a => 15 < a.pc).map fun a => a.cpu) := h.registered
      simp only [List.filter_append, List.filter_cons, List.map_append, AP.next] at hreg ⊢
      by_cases h15 : a.pc = 15
      · have h1 : ¬ 15 < a.pc := by omega
        have h2 : 15 < a.pc + 1 := by omega
        simp only [h1, h2, decide_True, decide_False, List.map_cons, if_true, if_false,
          Bool.false_eq_true] at hreg ⊢
        rw [if_pos h15]
        exact (hreg.append_right [a.cpu]).trans
          ((List.perm_append_singleton _ _).trans List.perm_middle.symm)
      · by_cases hgt : 15 < a.pc
        · have : 15 < a.pc + 1 := by omega
          simpa [h15, hgt, this] using hreg
        · have : ¬ 15 < a.pc + 1 := by omega
          simpa [h15, hgt, this] using hreg
    · intro b hbm
      show events_of b.hw (thread_step a s).2.log = _
      rw [hlog, events_of_append]
      simp only [List.mem_append, List.mem_cons] at hbm
      have hnot : a.cpu ∉ (l1.map fun a => a.cpu) ++ (l2.map fun a => a.cpu) :=
        (List.nodup_cons.mp (List.nodup_middle.mp hnd2)).1
      have hother : ∀ b, b ∈ l1 ∨ b ∈ l2 →
          events_of b.hw s.log ++ events_of b.hw [⟨a.hw, e, hd⟩]
            = (thread_events m0 b.cpu).take b.pc := by
        intro b hbm
        have hbm2 : b ∈ l1 ++ a :: l2 := by
          rcases hbm with hbm | hbm <;> simp [hbm]
        have hne : ¬ a.hw = b.hw := by
          rw [hhw, h.hws b hbm2]
          intro e2
          apply hnot
          rw [e2]
          rcases hbm with hbm | hbm
          · exact List.mem_append_left _ (List.mem_map_of_mem _ hbm)
          · exact List.mem_append_right _ (List.mem_map_of_mem _ hbm)
        have : events_of b.hw [⟨a.hw, e, hd⟩] = [] := by simp [events_of, hne]
        rw [this, List.append_nil]
        exact h.logs b hbm2
      rcases hbm with hbm | hbm | hbm
      · exact hother b (Or.inl hbm)
      · subst hbm
        have h1 : events_of a.hw [⟨a.hw, e, hd⟩] = [e] := by simp [events_of]
        have h2 : events_of a.hw s.log = (thread_events m0 a.cpu).take a.pc := h.logs a hmem
        have he2 : (thread_events m0 a.cpu)[a.pc]? = some e := by
          rw [← thread_events_congr hb hs]; exact he
        show events_of a.hw s.log ++ events_of a.hw [⟨a.hw, e, hd⟩]
          = (thread_events m0 a.cpu).take (a.pc + 1)
        rw [h1, h2, List.take_succ, he2]
        rfl
      · exact hother b (Or.inr hbm)

theorem Booting.boot (ids : List Int) (stack_base stack_size bitmap : Nat) :
    Booting ids ⟨stack_base, stack_size, 0, bitmap, []⟩
      (boot_machine ids stack_base stack_size bitmap) := by
  have hf : ∀ (n : Nat), ((ids.map fun c => (⟨c, c, 0⟩ : AP)).filter fun a => n < a.pc) = [] := by
    intro n
    simp [List.filter_eq_nil_iff]
  refine ⟨?_, ?_, ?_, rfl, rfl, rfl, ?_, ?_, ?_⟩
  · simp [boot_machine, Function.comp_def]
  · intro a ha
    simp only [boot_machine, List.mem_map] at ha
    obtain ⟨c, _, rfl⟩ := ha
    rfl
  · intro a ha
    simp only [boot_machine, List.mem_map] at ha
    obtain ⟨c, _, rfl⟩ := ha
    exact Nat.zero_le _
  · show 0 = _
    simp only [boot_machine]
    rw [hf 13]
    rfl
  · show List.Perm [] _
    simp only [boot_machine]
    rw [hf 15]
    exact List.Perm.refl _
  · intro a ha
    simp only [boot_machine, List.mem_map] at ha
    obtain ⟨c, _, rfl⟩ := ha
    simp [boot_machine, events_of]

theorem Booting.sched_step {ids : List Int} {m0 : smp_stuff} (hnd : ids.Nodup) (i : Nat)
    (m : Machine) (h : Booting ids m0 m) : Booting ids m0 (sched_step i m) := by
  unfold x86.sched_step
  by_cases hi : i < m.aps.length
  · rw [List.getElem?_eq_getElem hi]
    simp only
    have hdec : m.aps = m.aps.take i ++ m.aps[i] :: m.aps.drop (i + 1) := by
      rw [List.getElem_cons_drop, List.take_append_drop]
    rw [List.set_eq_take_append_cons_drop, if_pos hi]
    apply Booting.step hnd
    rw [← hdec]
    exact h
  · rw [List.getElem?_eq_none (Nat.le_of_not_lt hi)]
    exact h

theorem Booting.run_schedule {ids : List Int} {m0 : smp_stuff} (hnd : ids.Nodup)
    (sched : List Nat) : ∀ (m : Machine), Booting ids m0 m → Booting ids m0 (run_schedule sched m) := by
  induction sched with
  | nil =>
    intro m h
    exact h
  | cons i r ih =>
    intro m h
    exact ih _ (h.sched_step hnd i m)

theorem filter_eq_self_of_forall {α : Type} (p : α → Bool) (l : List α) (h : ∀ a ∈ l, p a = true) :
    l.filter p = l :=
  List.filter_eq_self.mpr h

/-- The bring-up of the APs `ids`: whatever the interleaving, once every core
is in its idle loop the boot barrier counter is the number of cores, the list
of initialised cores is a rearrangement of `ids`, and every core has performed
its whole program in order. -/
theorem boot_all_idle (ids : List Int) (stack_base stack_size bitmap : Nat) (sched : List Nat)
    (hnd : ids.Nodup)
    (hidle : ∀ a ∈ (run_schedule sched (boot_machine ids stack_base stack_size bitmap)).aps,
      a.pc = idle_pc) :
    (run_schedule sched (boot_machine ids stack_base stack_size bitmap)).shared.smp_main.boot_barrier
        = ids.length ∧
      (run_schedule sched (boot_machine ids stack_base stack_size
        bitmap)).shared.smp_main.initialized_cpus.Perm ids ∧
      ∀ c ∈ ids, events_of c
          (run_schedule sched (boot_machine ids stack_base stack_size bitmap)).shared.log
        = thread_events ⟨stack_base, stack_size, 0, bitmap, []⟩ c := by
  have h := (Booting.boot ids stack_base stack_size bitmap).run_schedule hnd sched
  generalize run_schedule sched (boot_machine ids stack_base stack_size bitmap) = m at h hidle
  have hlen : m.aps.length = ids.length := by
    rw [← h.cpus, List.length_map]
  have h13 : (m.aps.filter fun a => 13 < a.pc) = m.aps :=
    filter_eq_self_of_forall _ _ (fun a ha => by simp [hidle a ha, idle_pc])
  have h15 : (m.aps.filter fun a => 15 < a.pc) = m.aps :=
    filter_eq_self_of_forall _ _ (fun a ha => by simp [hidle a ha, idle_pc])
  refine ⟨?_, ?_, ?_⟩
  · rw [h.barrier, h13, hlen]
  · have := h.registered
    rw [h15, h.cpus] at this
    exact this
  · intro c hc
    rw [← h.cpus, List.mem_map] at hc
    obtain ⟨a, ha, rfl⟩ := hc
    have := h.logs a ha
    rw [h.hws a ha, hidle a ha] at this
    rw [this]
    rfl

theorem run_schedule_append (a b : List Nat) :
    ∀ (m : Machine), run_schedule (a ++ b) m = run_schedule b (run_schedule a m) := by
  induction a with
  | nil => intro m; rfl
  | cons i r ih => intro m; exact ih _

theorem set_same {α : Type} (l : List α) (i : Nat) (a : α) (h : l[i]? = some a) :
    l.set i a = l := by
  apply List.ext_getElem?
  intro j
  rw [List.getElem?_set]
  by_cases hij : i = j
  · subst hij
    have hi : i < l.length := by
      by_contra hlt
      rw [List.getElem?_eq_none (Nat.le_of_not_lt hlt)] at h
      cases h
    simp [hi, h]
  · simp [hij]

theorem run_schedule_replicate (i : Nat) (n : Nat) :
    ∀ (m : Machine) (a : AP), m.aps[i]? = some a →
      run_schedule (List.replicate n i) m
        = ⟨m.aps.set i (run_thread n a m.shared).1, (run_thread n a m.shared).2⟩ := by
  induction n with
  | zero =>
    intro m a h
    simp only [List.replicate, run_schedule, run_thread]
    rw [set_same _ _ _ h]
  | succ n ih =>
    intro m a h
    have hi : i < m.aps.length := by
      by_contra hlt
      rw [List.getElem?_eq_none (Nat.le_of_not_lt hlt)] at h
      cases h
    simp only [List.replicate, run_schedule, run_thread]
    have hs : sched_step i m = ⟨m.aps.set i (thread_step a m.shared).1, (thread_step a m.shared).2⟩ := by
      simp [sched_step, h]
    rw [hs, ih _ (thread_step a m.shared).1 (by simp [List.getElem?_set, hi])]
    simp [List.set_set]

/-- After the first `n` cores have run alone one after another, they are in
their idle loops, the others have not started, the lock is free and the process
runs. -/
theorem solo_schedule_state (ids : List Int) (stack_base stack_size bitmap : Nat) (n : Nat)
    (hn : n ≤ ids.length) :
    (run_schedule (solo_schedule n) (boot_machine ids stack_base stack_size
        bitmap)).shared.global_lock = none ∧
      (run_schedule (solo_schedule n) (boot_machine ids stack_base stack_size
        bitmap)).shared.halted = false ∧
      ∀ j, (run_schedule (solo_schedule n) (boot_machine ids stack_base stack_size bitmap)).aps[j]?
        = (ids[j]?).map fun c => (⟨c, c, if j < n then 17 else 0⟩ : AP) := by
  induction n with
  | zero =>
    refine ⟨rfl, rfl, fun j => ?_⟩
    simp [solo_schedule, run_schedule, boot_machine]
  | succ n ih =>
    obtain ⟨hl, hh, ha⟩ := ih (Nat.le_of_succ_le hn)
    have hlt : n < ids.length := hn
    have hn1 : (run_schedule (solo_schedule n) (boot_machine ids stack_base stack_size
        bitmap)).aps[n]? = some ⟨ids[n], ids[n], 0⟩ := by
      rw [ha, List.getElem?_eq_getElem hlt]
      simp
    rw [solo_schedule, run_schedule_append, run_schedule_replicate n 17 _ _ hn1]
    have hm := thread_main_match ids[n] _ hl hh
    unfold revenant_thread_main at hm
    rw [hm]
    refine ⟨hl, hh, fun j => ?_⟩
    simp only
    rw [List.getElem?_set]
    by_cases hj : n = j
    · subst hj
      have hlen : n < (run_schedule (solo_schedule n) (boot_machine ids stack_base stack_size
          bitmap)).aps.length := by
        by_contra hc
        rw [List.getElem?_eq_none (Nat.le_of_not_lt hc)] at hn1
        cases hn1
      simp [hlen, List.getElem?_eq_getElem hlt]
    · rw [if_neg hj, ha]
      congr 1
      funext c
      have : (j < n + 1) = (j < n) := by
        apply propext
        constructor
        · intro h; omega
        · intro h; omega
      simp only [this]

/-- There is an interleaving in which every core reaches its idle loop. -/
theorem solo_schedule_idle (ids : List Int) (stack_base stack_size bitmap : Nat) :
    ∀ a ∈ (run_schedule (solo_schedule ids.length)
      (boot_machine ids stack_base stack_size bitmap)).aps, a.pc = idle_pc := by
  intro a ha
  obtain ⟨_, _, h⟩ := solo_schedule_state ids stack_base stack_size bitmap ids.length
    (Nat.le_refl _)
  obtain ⟨j, hj⟩ := List.mem_iff_getElem?.mp ha
  rw [h] at hj
  cases hi : ids[j]? with
  | none => rw [hi] at hj; cases hj
  | some c =>
    rw [hi] at hj
    have hlt : j < ids.length := by
      by_contra hc
      rw [List.getElem?_eq_none (Nat.le_of_not_lt hc)] at hi
      cases hi
    simp only [Option.map_some', Option.some.injEq, hlt, if_true] at hj
    rw [← hj]
    rfl

theorem thread_step_mismatch (a : AP) (s : Boot) (hne : a.cpu ≠ a.hw) (hpc : a.pc ≤ 4) :
    (thread_step a s).1.cpu = a.cpu ∧ (thread_step a s).1.hw = a.hw ∧
      (thread_step a s).1.pc ≤ 4 := by
  obtain ⟨cpu, hw, pc⟩ := a
  simp only at hne hpc
  cases hh : s.halted with
  | true => simp [thread_step, hh, hpc]
  | false =>
    cases hl : s.global_lock <;>
      interval_cases pc <;>
        simp [thread_step, global_lock, global_unlock, expects_cpu_id, AP.next, hh, hl, hne]

theorem sched_step_mismatch (i j : Nat) (m : Machine) (a : AP) (h : m.aps[i]? = some a)
    (hne : a.cpu ≠ a.hw) (hpc : a.pc ≤ 4) :
    ∃ a1, (sched_step j m).aps[i]? = some a1 ∧ a1.cpu = a.cpu ∧ a1.hw = a.hw ∧ a1.pc ≤ 4 := by
  have hi : i < m.aps.length := by
    by_contra hlt
    rw [List.getElem?_eq_none (Nat.le_of_not_lt hlt)] at h
    cases h
  unfold sched_step
  cases hj : m.aps[j]? with
  | none => exact ⟨a, h, rfl, rfl, hpc⟩
  | some b =>
    simp only
    rw [List.getElem?_set]
    by_cases hji : j = i
    · subst hji
      rw [h] at hj
      cases hj
      obtain ⟨h1, h2, h3⟩ := thread_step_mismatch a m.shared hne hpc
      exact ⟨_, by simp [hi], h1, h2, h3⟩
    · exact ⟨a, by simp [hji, h], rfl, rfl, hpc⟩

theorem run_schedule_mismatch (i : Nat) (sched : List Nat) :
    ∀ (m : Machine) (a : AP), m.aps[i]? = some a → a.cpu ≠ a.hw → a.pc ≤ 4 →
      ∃ a1, (run_schedule sched m).aps[i]? = some a1 ∧ a1.cpu = a.cpu ∧ a1.hw = a.hw ∧
        a1.pc ≤ 4 := by
  induction sched with
  | nil =>
    intro m a h _ hpc
    exact ⟨a, h, rfl, rfl, hpc⟩
  | cons j r ih =>
    intro m a h hne hpc
    obtain ⟨a1, h1, hc, hw, hp⟩ := sched_step_mismatch i j m a h hne hpc
    obtain ⟨a2, h2, hc2, hw2, hp2⟩ := ih _ a1 h1 (by rw [hc, hw]; exact hne) hp
    exact ⟨a2, h2, hc2.trans hc, hw2.trans hw, hp2⟩

/-- C6: when the hardware reports an id different from the argument `cpu`,
`revenant_thread_main(cpu)` ends at the identity check, which terminates the
process: the core has only yielded, logged under the lock and failed the check;
the event subsystem is not initialised, no vector is subscribed, interrupts are
not enabled, timer, clock, RNG and the init hook are not run, the boot barrier
is not incremented and `cpu` is not appended to the list of initialised cores,
and no core executes anything afterwards.  In any interleaving with other
cores, such a core never gets past the check. -/
theorem revenant_thread_main_wrong_core (cpu hw : Int) (hne : cpu ≠ hw) :
    (∀ s : Boot, s.global_lock = none → s.halted = false →
      (revenant_thread_main cpu hw s).1 = ⟨cpu, hw, 4⟩ ∧
      (revenant_thread_main cpu hw s).2.halted = true ∧
      (revenant_thread_main cpu hw s).2.log = s.log ++
        [⟨hw, .sched_yield, none⟩, ⟨hw, .global_lock, none⟩,
         ⟨hw, .info2 hw (this_stack s.smp_main cpu), some hw⟩,
         ⟨hw, .global_unlock, some hw⟩, ⟨hw, .expects false, none⟩] ∧
      (revenant_thread_main cpu hw s).2.smp_main = s.smp_main ∧
      (∀ b : AP, thread_step b (revenant_thread_main cpu hw s).2
        = (b, (revenant_thread_main cpu hw s).2))) ∧
    (∀ (m : Machine) (i pc : Nat) (sched : List Nat), m.aps[i]? = some ⟨cpu, hw, pc⟩ → pc ≤ 4 →
      ∃ pc1, (run_schedule sched m).aps[i]? = some ⟨cpu, hw, pc1⟩ ∧ pc1 ≤ 4) := by
  constructor
  · intro s hfree hrun
    rw [thread_main_mismatch cpu hw s hne hfree hrun]
    refine ⟨rfl, rfl, ?_, rfl, fun b => ?_⟩
    · simp [check_log, hne]
    · simp [thread_step]
  · intro m i pc sched h hpc
    obtain ⟨a1, h1, hc, hw1, hp⟩ := run_schedule_mismatch i sched m ⟨cpu, hw, pc⟩ h hne hpc
    obtain ⟨c1, w1, p1⟩ := a1
    simp only at hc hw1 hp
    subst hc hw1
    exact ⟨p1, h1, hp⟩

/-- C6 for argument 1 on the core that reports id 2. -/
theorem revenant_thread_main_wrong_core_witness :
    (revenant_thread_main 1 2 boot_start).1 = ⟨1, 2, 4⟩ ∧
      (revenant_thread_main 1 2 boot_start).2.halted = true ∧
      (revenant_thread_main 1 2 boot_start).2.smp_main = boot_start.smp_main :=
  have h := (revenant_thread_main_wrong_core 1 2 (by decide)).1 boot_start rfl rfl
  ⟨h.1, h.2.1, h.2.2.2.1⟩

/-- C7: for distinct AP ids, each AP running `revenant_thread_main` with the id
its hardware reports, from a boot barrier of 0 and an empty list of initialised
cores: in every interleaving in which all cores have reached their idle loop the
counter is the number of cores and the list holds each id once; every core has
performed its program in order, with one increment, after the subscriptions,
the timer, clock and RNG initialisation and the init hook, and before the
append of its id.  Such an interleaving exists. -/
theorem boot_barrier_counts_cores (ids : List Int) (stack_base stack_size bitmap : Nat)
    (hnd : ids.Nodup) :
    (∀ sched : List Nat,
      (∀ a ∈ (run_schedule sched (boot_machine ids stack_base stack_size bitmap)).aps,
        a.pc = idle_pc) →
      (run_schedule sched (boot_machine ids stack_base stack_size
        bitmap)).shared.smp_main.boot_barrier = ids.length ∧
      (∀ c, (run_schedule sched (boot_machine ids stack_base stack_size
        bitmap)).shared.smp_main.initialized_cpus.count c = if c ∈ ids then 1 else 0) ∧
      (∀ c ∈ ids, events_of c
          (run_schedule sched (boot_machine ids stack_base stack_size bitmap)).shared.log
        = [.sched_yield, .global_lock,
           .info2 c (this_stack ⟨stack_base, stack_size, 0, bitmap, []⟩ c), .global_unlock,
           .expects true, .init_local c, .subscribe c 0 .revenant_task_handler,
           .subscribe c 1 .start_timers, .sti, .apic_timer_init, .clocks_init, .rng_init,
           .init_task, .boot_barrier_increment, .global_lock, .initialized_cpus_push c,
           .global_unlock])) ∧
    (∃ sched : List Nat,
      ∀ a ∈ (run_schedule sched (boot_machine ids stack_base stack_size bitmap)).aps,
        a.pc = idle_pc) := by
  constructor
  · intro sched hidle
    obtain ⟨hb, hp, hl⟩ := boot_all_idle ids stack_base stack_size bitmap sched hnd hidle
    refine ⟨hb, fun c => ?_, hl⟩
    rw [hp.count_eq]
    by_cases hc : c ∈ ids
    · rw [if_pos hc]
      exact List.count_eq_one_of_mem hnd hc
    · rw [if_neg hc]
      exact List.count_eq_zero_of_not_mem hc
  · exact ⟨solo_schedule ids.length, solo_schedule_idle ids stack_base stack_size bitmap⟩

/-- C7 for the APs 1, 2 and 3: there is an interleaving that brings the three
cores to their idle loops, and the counter is then 3. -/
theorem boot_barrier_counts_cores_witness :
    ∃ sched : List Nat,
      (∀ a ∈ (run_schedule sched (boot_machine [1, 2, 3] 4096 256 0)).aps, a.pc = idle_pc) ∧
      (run_schedule sched (boot_machine [1, 2, 3] 4096 256 0)).shared.smp_main.boot_barrier
        = 3 :=
  have h := boot_barrier_counts_cores [1, 2, 3] 4096 256 0 (by decide)
  h.2.elim fun sched hs => ⟨sched, hs, (h.1 sched hs).1⟩

/-- C9 as stated fails: on the core with id 1 running `revenant_thread_main(1)`
the identity check is evaluated with the global lock free, after
`SMP::global_unlock()`. -/
theorem revenant_thread_main_check_outside_lock :
    ((revenant_thread_main 1 1 boot_start).2.log.drop 3).take 2
      = [⟨1, .global_unlock, some 1⟩, ⟨1, .expects true, none⟩] := by
  rw [thread_main_match 1 boot_start rfl rfl]
  rfl

/-- C9, amended: in every run of `revenant_thread_main` the only operation
between `SMP::global_lock()` and the matching `SMP::global_unlock()` is the
`INFO2` line; the identity check is evaluated next, after the unlock, with the
global lock free, and it is the only check of the run. -/
theorem revenant_thread_main_check_lock_free (cpu hw : Int) (s : Boot)
    (hfree : s.global_lock = none) (hrun : s.halted = false) :
    ((revenant_thread_main cpu hw s).2.log.drop s.log.length).take 5
        = [⟨hw, .sched_yield, none⟩, ⟨hw, .global_lock, none⟩,
           ⟨hw, .info2 hw (this_stack s.smp_main cpu), some hw⟩,
           ⟨hw, .global_unlock, some hw⟩, ⟨hw, .expects (decide (cpu = hw)), none⟩] ∧
      ∀ e ∈ (revenant_thread_main cpu hw s).2.log.drop s.log.length,
        ∀ b, e.ev = .expects b → e.holder = none := by
  by_cases hc : cpu = hw
  · subst hc
    rw [thread_main_match cpu s hfree hrun]
    constructor
    · simp [check_log, ready_log]
    · intro e he b hb
      simp only [List.drop_left', check_log, ready_log, List.cons_append, List.nil_append,
        List.mem_cons, List.mem_singleton, List.not_mem_nil, or_false] at he
      rcases he with he | he | he | he | he | he | he | he | he | he | he | he | he | he | he
        | he | he <;> subst he <;> first | rfl | cases hb
  · rw [thread_main_mismatch cpu hw s hc hfree hrun]
    constructor
    · simp [check_log]
    · intro e he b hb
      simp only [List.drop_left', check_log, List.mem_cons, List.mem_singleton,
        List.not_mem_nil, or_false] at he
      rcases he with he | he | he | he | he <;> subst he <;> first | rfl | cases hb

/-- C9, amended, for argument 1 on the core with id 1. -/
theorem revenant_thread_main_check_lock_free_witness :
    ((revenant_thread_main 1 1 boot_start).2.log.drop boot_start.log.length).take 5
      = [⟨1, .sched_yield, none⟩, ⟨1, .global_lock, none⟩,
         ⟨1, .info2 1 (this_stack boot_start.smp_main 1), some 1⟩,
         ⟨1, .global_unlock, some 1⟩, ⟨1, .expects (decide ((1 : Int) = 1)), none⟩] :=
  (revenant_thread_main_check_lock_free 1 1 boot_start rfl rfl).1

end x86

namespace http

/-! ## The HTTP message: lemmas and claims -/

variable {H : Type}

theorem Message.length_ok_call (hd : Header H) (m : Message H) (c : Call) (h : m.length_ok) :
    (m.call hd c).length_ok := by
  cases c with
  | add_body b =>
    show (m.add_body hd b).length_ok
    unfold Message.add_body
    by_cases he : b.isEmpty = true
    · rw [if_pos he]
      exact h
    · rw [if_neg he]
      intro _
      rfl
  | add_chunk c =>
    show (m.add_chunk hd c).length_ok
    unfold Message.add_chunk
    by_cases he : c.isEmpty = true
    · rw [if_pos he]
      exact h
    · rw [if_neg he]
      intro _
      rfl
  | clear_body =>
    intro hb
    simp [Message.call, Message.clear_body, Message.has_body, String.isEmpty] at hb
  | reset =>
    intro hb
    simp [Message.call, Message.reset, Message.clear_body, Message.has_body, String.isEmpty] at hb

theorem Message.length_ok_calls (hd : Header H) (cs : List Call) :
    ∀ (m : Message H), m.length_ok → (m.calls hd cs).length_ok := by
  induction cs with
  | nil => intro m h; exact h
  | cons c r ih => intro m h; exact ih _ (Message.length_ok_call hd m c h)

/-- C10: for a message built by the constructor and changed by any sequence of
`add_body`, `add_chunk`, `clear_body` and `reset`, whenever `has_body()` holds
the stored content-length string is the decimal rendering of `body().size()`;
`add_body` and `add_chunk` with an empty argument change nothing, `add_chunk`
with a non-empty chunk makes the body the old body followed by the chunk, and
after `clear_body` or `reset` there is no body. -/
theorem message_content_length (hd : Header H) (limit : Nat) (cs : List Call) :
    (((Message.make hd limit).calls hd cs).has_body = true →
      ((Message.make hd limit).calls hd cs).content_length_
        = Nat.repr ((Message.make hd limit).calls hd cs).body.length) ∧
    (∀ m : Message H, m.add_body hd "" = m ∧ m.add_chunk hd "" = m) ∧
    (∀ (m : Message H) (chunk : String), chunk ≠ "" →
      (m.add_chunk hd chunk).body = m.body ++ chunk) ∧
    (∀ m : Message H, (m.clear_body hd).has_body = false ∧ (m.reset hd).has_body = false) := by
  refine ⟨?_, fun m => ⟨rfl, rfl⟩, fun m chunk hc => ?_, fun m => ⟨rfl, rfl⟩⟩
  · apply Message.length_ok_calls
    intro hb
    simp [Message.make, Message.has_body, String.isEmpty] at hb
  · have : chunk.isEmpty = false := by
      cases he : chunk.isEmpty with
      | false => rfl
      | true => exact absurd ((String.isEmpty_iff chunk).mp he) hc
    simp [Message.add_chunk, this, Message.body]

/-- C10 on an example: a body, a chunk, a reset and a chunk again. -/
theorem message_content_length_witness :
    ((Message.make list_header 8).calls list_header
        [.add_body "abc", .add_chunk "", .add_chunk "defghijk"]).content_length_ = "11" ∧
      ((Message.make list_header 8).calls list_header
        [.add_body "abc", .reset, .add_chunk "de"]).body = "de" := by
  constructor
  · have h := (message_content_length list_header 8
      [.add_body "abc", .add_chunk "", .add_chunk "defghijk"]).1 (by decide)
    rw [h]
    decide
  · decide

end http
